import Mathlib

/-!
Shallow embedding of the payment-screening engine of this repository.  The
three source files `paymentscreening.py`, `paymentscreening_v3.py` and
`payment_screening_api.py` contain textually identical engine functions (up to
one dictionary-lookup idiom in `canonical_country` and the packaging of the
final result); each file is embedded in its own namespace (`PS`, `V3`, `Api`),
over a shared model of the Python library primitives they all use (`re`
substitution and search, `str` methods, `datetime.strptime`, `max`, `sorted`).

Text is modelled as `List Char`; Python floats are modelled as exact
rationals; Python regular-expression character classes are modelled over their
ASCII semantics.
-/

/-- Text is modelled as a list of characters. -/
abbrev Str := List Char

/-- Python regex `\s` (ASCII): space, tab, newline, carriage return,
vertical tab, form feed. -/
def pyWs (c : Char) : Bool :=
  c == ' ' || c == '\t' || c == '\n' || c == '\r' || c == '\x0b' || c == '\x0c'

/-- Python regex `\w` word character (ASCII): alphanumeric or underscore. -/
def wordChar (c : Char) : Bool := c.isAlphanum || c == '_'

/-- The punctuation class used by `_norm` in all three files:
`[\.\,;:\-\(\)\[\]\/\\]`. -/
def normPunct (c : Char) : Bool :=
  c == '.' || c == ',' || c == ';' || c == ':' || c == '-' || c == '(' || c == ')' ||
  c == '[' || c == ']' || c == '/' || c == '\\'

/-- The punctuation class used by `normalize_text` in all three files:
`[\(\)\[\]\.,;:!@#\$%\^&\*\-_/\\]`. -/
def textPunct (c : Char) : Bool :=
  c == '(' || c == ')' || c == '[' || c == ']' || c == '.' || c == ',' || c == ';' ||
  c == ':' || c == '!' || c == '@' || c == '#' || c == '$' || c == '%' || c == '^' ||
  c == '&' || c == '*' || c == '-' || c == '_' || c == '/' || c == '\\'

/-- `re.sub("[...]+", r, s)`: every maximal run of characters satisfying `p` is
replaced by `r`.  The flag records whether the previous character was part of a
run (in which case the replacement has already been emitted). -/
def subRunsA (p : Char → Bool) (r : Str) : Bool → Str → Str
  | _, [] => []
  | inRun, c :: cs =>
    if p c then (if inRun then subRunsA p r true cs else r ++ subRunsA p r true cs)
    else c :: subRunsA p r false cs

def subRuns (p : Char → Bool) (r : Str) (s : Str) : Str := subRunsA p r false s

/-- Python `str.strip()`: drop leading and trailing whitespace. -/
def pyStrip (s : Str) : Str := ((s.dropWhile pyWs).reverse.dropWhile pyWs).reverse

/-- Python `str.lower()` (ASCII model). -/
def pyLower (s : Str) : Str := s.map Char.toLower

/-- Python `str.upper()` (ASCII model). -/
def pyUpper (s : Str) : Str := s.map Char.toUpper

/-- Word boundary `\b` after a match whose last character is a word character:
the following character must not be a word character (or the string ends). -/
def boundaryAfter : Str → Bool
  | [] => true
  | c :: _ => !wordChar c

/-- `re.search(rf"\b{pat}\b", text)` for a pattern `pat` whose first and last
characters are word characters: scan every position left to right; `prevW`
records whether the preceding character is a word character (so `!prevW` is
exactly the `\b` condition in front of the pattern). -/
def searchWordA (pat : Str) : Bool → Str → Bool
  | prevW, [] => !prevW && pat.isPrefixOf ([] : Str) && boundaryAfter []
  | prevW, c :: cs =>
    (!prevW && pat.isPrefixOf (c :: cs) && boundaryAfter ((c :: cs).drop pat.length)) ||
    searchWordA pat (wordChar c) cs

def searchWord (pat text : Str) : Bool := searchWordA pat false text

/-! `re.sub(r"\bw\b", r, s)` for a pattern `w` consisting only of word
characters replaces exactly those maximal word-character runs of `s` that equal
`w`: the `\b` conditions force a match to start and end at run edges, and the
pattern itself contains only word characters.  The scan below reads the
current word-character run into `acc` and flushes it at each run end. -/

def flushRun (w r acc : Str) : Str := if acc = w then r else acc

def subWordA (w r : Str) : Str → Str → Str
  | acc, [] => flushRun w r acc
  | acc, c :: cs =>
    if wordChar c then subWordA w r (acc ++ [c]) cs
    else flushRun w r acc ++ c :: subWordA w r [] cs

def subWord (w r s : Str) : Str := subWordA w r [] s

/-- Consume an optional literal `.` (the `\.?` of the `p.o. box` pattern). -/
def optDot : Str → ℕ × Str
  | '.' :: cs => (1, cs)
  | l => (0, l)

/-- Consume a maximal whitespace run (`\s*`, greedy). -/
def wsChunk (l : Str) : ℕ × Str := ((l.takeWhile pyWs).length, l.dropWhile pyWs)

/-- Match `p\.?\s*o\.?\s*box` followed by `\b` at the head of `l`; return the
number of characters consumed.  The greedy scan is exact for this pattern:
whenever it fails, no backtracking of `\.?` or `\s*` can succeed, because the
character required next (`o` or `b`) is neither a dot nor whitespace. -/
def matchPoBox : Str → Option ℕ
  | 'p' :: l1 =>
    let d1 := optDot l1
    let w1 := wsChunk d1.2
    match w1.2 with
    | 'o' :: l4 =>
      let d2 := optDot l4
      let w2 := wsChunk d2.2
      if "box".data.isPrefixOf w2.2 && boundaryAfter (w2.2.drop 3) then
        some (1 + d1.1 + w1.1 + 1 + d2.1 + w2.1 + 3)
      else none
    | _ => none
  | _ => none

/-- `re.sub(r"\bp\.?\s*o\.?\s*box\b", "po box", s)`: scan left to right; at a
position preceded by a non-word character try the pattern, emit `"po box"`,
and continue after the matched text (whose last character `x` is a word
character, hence `prevW := true`). -/
def subPoBoxA : Bool → Str → Str
  | _, [] => []
  | prevW, c :: cs =>
    if prevW then c :: subPoBoxA (wordChar c) cs
    else
      match matchPoBox (c :: cs) with
      | some n => "po box".data ++ subPoBoxA true (cs.drop (n - 1))
      | none => c :: subPoBoxA (wordChar c) cs
termination_by _ l => l.length
decreasing_by
  all_goals simp_wf
  all_goals omega

def subPoBox (s : Str) : Str := subPoBoxA false s

/-- The maximal word-character runs of a string (auxiliary notion used to
reason about the whole-word substitutions): `acc` is the run read so far. -/
def wordRunsA : Str → Str → List Str
  | acc, [] => if acc = [] then [] else [acc]
  | acc, c :: cs =>
    if wordChar c then wordRunsA (acc ++ [c]) cs
    else (if acc = [] then [] else [acc]) ++ wordRunsA [] cs

def wordRuns (v : Str) : List Str := wordRunsA [] v

/-- The non-empty pieces of `re.split(r"\s+", s)`: the maximal non-whitespace
runs of `s`.  `acc` is the run currently being read. -/
def tokensA : Str → Str → List Str
  | acc, [] => if acc = [] then [] else [acc]
  | acc, c :: cs =>
    if pyWs c then (if acc = [] then tokensA [] cs else acc :: tokensA [] cs)
    else tokensA (acc ++ [c]) cs

/-! The two loops of `jaro_similarity`, shared verbatim by the three files: the
flag arrays become `List Bool` values. -/

/-- The inner loop of the matching phase: for `j` in `[j, stop)`, skip already
claimed positions of `s2` and claim the first unclaimed position whose
character equals `ch`. -/
def findJ (ch : Char) (s2 : Str) (s2m : List Bool) (stop : ℕ) : ℕ → Option ℕ
  | j =>
    if j < stop then
      if s2m.getD j false then findJ ch s2 s2m stop (j + 1)
      else if s2.getD j ' ' = ch then some j
      else findJ ch s2 s2m stop (j + 1)
    else none
termination_by j => stop - j

/-- The matching loop over `i` (the position in `s1`, threaded explicitly):
returns the match flags for `s1`, the final match flags for `s2`, and the
number of matches. -/
def phase1 (s2 : Str) (maxDist : ℤ) : Str → ℕ → List Bool → List Bool × List Bool × ℕ
  | [], _, s2m => ([], s2m, 0)
  | c :: rest, i, s2m =>
    let start : ℕ := (max 0 ((i : ℤ) - maxDist)).toNat
    let stop : ℕ := (min ((i : ℤ) + maxDist + 1) (s2.length : ℤ)).toNat
    match findJ c s2 s2m stop start with
    | some j =>
      let out := phase1 s2 maxDist rest (i + 1) (s2m.set j true)
      (true :: out.1, out.2.1, out.2.2 + 1)
    | none =>
      let out := phase1 s2 maxDist rest (i + 1) s2m
      (false :: out.1, out.2.1, out.2.2)

/-- `while not s2_matches[k]: k += 1`: the first index `≥ k` whose flag is set
(phase 1 guarantees the scan never runs past the end on reachable states). -/
def nextSet (s2m : List Bool) (k : ℕ) : ℕ :=
  k + ((s2m.drop k).takeWhile (fun b => !b)).length

/-- The transposition loop: walk the matched positions of `s1` (the zip of
characters and flags) against the matched positions of `s2` in order. -/
def phase2 (s2 : Str) (s2m : List Bool) : List (Char × Bool) → ℕ → ℕ
  | [], _ => 0
  | (c, m) :: rest, k =>
    if m then
      let kk := nextSet s2m k
      (if s2.getD kk ' ' ≠ c then 1 else 0) + phase2 s2 s2m rest (kk + 1)
    else phase2 s2 s2m rest k

/-- The common-prefix count of `jaro_winkler`: compare the zipped characters,
stopping at the first mismatch or when the count reaches `maxL`. -/
def winklerPrefixLen (maxL : ℕ) : Str → Str → ℕ → ℕ
  | a :: as, b :: bs, l =>
    if a = b then (if l + 1 = maxL then l + 1 else winklerPrefixLen maxL as bs (l + 1))
    else l
  | _, _, l => l

/-- Python `max` over a list of rationals (`0` for the empty list, matching the
`if sims else 0.0` guard at the one call site). -/
def maxQ : List ℚ → ℚ
  | [] => 0
  | x :: xs => xs.foldl max x

/-! `datetime.strptime(s, "%Y-%m-%d")`.  CPython compiles the format to the
regex `\d\d\d\d-(1[0-2]|0[1-9]|[1-9])-(3[01]|[12]\d|0[1-9]|[1-9])`, requires it
to consume the whole string, and `datetime(year, month, day)` then validates
the calendar date (year at least 1, day within the month, Gregorian leap
years).  Any failure raises `ValueError`, modelled as `none`. -/

def digVal (c : Char) : ℕ := c.toNat - '0'.toNat

def parseYear : Str → Option (ℕ × Str)
  | a :: b :: c :: d :: rest =>
    if a.isDigit && b.isDigit && c.isDigit && d.isDigit then
      some (1000 * digVal a + 100 * digVal b + 10 * digVal c + digVal d, rest)
    else none
  | _ => none

/-- Two-character month alternatives `1[0-2] | 0[1-9]`. -/
def parseMonth2 : Str → Option (ℕ × Str)
  | a :: b :: rest =>
    if a == '1' && (b == '0' || b == '1' || b == '2') then some (10 + digVal b, rest)
    else if a == '0' && b.isDigit && b != '0' then some (digVal b, rest)
    else none
  | _ => none

/-- One-character month alternative `[1-9]`. -/
def parseMonth1 : Str → Option (ℕ × Str)
  | a :: rest => if a.isDigit && a != '0' then some (digVal a, rest) else none
  | _ => none

/-- Two-character day alternatives `3[01] | [12]\d | 0[1-9]`. -/
def parseDay2 : Str → Option (ℕ × Str)
  | a :: b :: rest =>
    if a == '3' && (b == '0' || b == '1') then some (30 + digVal b, rest)
    else if (a == '1' || a == '2') && b.isDigit then some (10 * digVal a + digVal b, rest)
    else if a == '0' && b.isDigit && b != '0' then some (digVal b, rest)
    else none
  | _ => none

/-- One-character day alternative `[1-9]`. -/
def parseDay1 : Str → Option (ℕ × Str)
  | a :: rest => if a.isDigit && a != '0' then some (digVal a, rest) else none
  | _ => none

/-- Gregorian leap year, as `calendar`/`datetime` define it. -/
def isLeap (y : ℕ) : Bool := y % 4 == 0 && (y % 100 != 0 || y % 400 == 0)

def daysInMonth (y m : ℕ) : ℕ :=
  if m == 2 then (if isLeap y then 29 else 28)
  else if m == 4 || m == 6 || m == 9 || m == 11 then 30 else 31

/-- The checks `datetime(y, m, d)` performs (the regex already bounds
`m ≤ 12` and `y ≤ 9999`). -/
def validDate (y m d : ℕ) : Bool :=
  1 ≤ y && 1 ≤ m && m ≤ 12 && 1 ≤ d && d ≤ daysInMonth y m

/-- Day field followed by end of string, with regex backtracking from the
two-character to the one-character alternative. -/
def finishDay (y m : ℕ) (rest : Str) : Option (ℕ × ℕ × ℕ) :=
  (match parseDay2 rest with
   | some (d, r) => if r = [] then some (y, m, d) else none
   | none => none) <|>
  (match parseDay1 rest with
   | some (d, r) => if r = [] then some (y, m, d) else none
   | none => none)

/-- Month field, literal `-`, then the day, with regex backtracking from the
two-character to the one-character month alternative. -/
def parseAfterYear (y : ℕ) (rest : Str) : Option (ℕ × ℕ × ℕ) :=
  (match parseMonth2 rest with
   | some (m, r) =>
     match r with
     | '-' :: r2 => finishDay y m r2
     | _ => none
   | none => none) <|>
  (match parseMonth1 rest with
   | some (m, r) =>
     match r with
     | '-' :: r2 => finishDay y m r2
     | _ => none
   | none => none)

/-- The full-string regex match of `strptime("%Y-%m-%d")`. -/
def parseYMD (s : Str) : Option (ℕ × ℕ × ℕ) :=
  match parseYear s with
  | some (y, rest) =>
    match rest with
    | '-' :: r1 => parseAfterYear y r1
    | _ => none
  | none => none

/-- `datetime.strptime(s, "%Y-%m-%d").date()`, as a partial function: `none`
is a raised `ValueError`. -/
def strptimeDate (s : Str) : Option (ℕ × ℕ × ℕ) :=
  match parseYMD s with
  | some (y, m, d) => if validDate y m d then some (y, m, d) else none
  | none => none

/-- A watchlist record.  `wl.get("aka")` being `None` and being `[]` have the
same effect in the sources (`wl_aka or []`), so aliases are a plain list. -/
structure Entry where
  name : Str
  aka : List Str
  address : Str
  country : Str
  dob : Option Str
  list : Str
  category : Str
deriving Repr, DecidableEq

/-- The per-pair breakdown dictionary returned by `composite_risk_score`. -/
structure Breakdown where
  name : ℚ
  address : ℚ
  dob : ℚ
  country : ℚ
  sanction_party_country : Bool
  sanction_party_country_name : Option Str
  sanction_address_hit : Bool
  sanction_address_match : Option Str
deriving Repr, DecidableEq

/-- The fields of the input payload that `screen_payment` reads (`amount`,
`currency` and `reference` are never read by the engine). -/
structure Payload where
  payer_name : Str
  payer_address : Str
  payer_country : Str
  payer_dob : Str
  benef_name : Str
  benef_address : Str
  benef_country : Str
  benef_dob : Str
deriving Repr, DecidableEq

/-- One element of the candidate list: `("PAYER"|"BENEFICIARY", wl, score,
breakdown)`. -/
structure Candidate where
  role : Str
  wl : Entry
  score : ℚ
  breakdown : Breakdown
deriving Repr, DecidableEq

/-- The 9-tuple returned by `screen_payment` in `paymentscreening.py` and
`paymentscreening_v3.py`, as a record.  With an empty candidate list the
sources put `(None, None, 0.0, {})` in the best-candidate slots; the three
`Option` fields and `best_score = 0` model that. -/
structure ScreenResult where
  decision : Str
  reason : Str
  best_role : Option Str
  best_wl : Option Entry
  best_score : ℚ
  best_breakdown : Option Breakdown
  sanction_flag : Bool
  sanction_reasons : List Str
  candidates : List Candidate
deriving Repr, DecidableEq

/-- The result dictionary returned by `screen_payment` in
`payment_screening_api.py` (same nine components, keyed by name). -/
structure ApiResult where
  decision : Str
  reason : Str
  best_role : Option Str
  best_wl : Option Entry
  best_score : ℚ
  breakdown : Option Breakdown
  sanction_flag : Bool
  sanction_reasons : List Str
  candidates : List Candidate
deriving Repr, DecidableEq

/-- Python `max(candidates, key=lambda x: x[2])`: left fold that replaces the
current best only on a strictly greater key, hence the first maximal element. -/
def pyMaxCand : List Candidate → Option Candidate
  | [] => none
  | c :: cs => some (cs.foldl (fun cur d => if d.score > cur.score then d else cur) c)

/-- Stable insertion for the descending sort: a new element moves ahead of an
existing one only when its score is strictly greater, so ties keep their
previous order, exactly as Python's stable `sorted(..., reverse=True)`. -/
def insertDesc (c : Candidate) : List Candidate → List Candidate
  | [] => [c]
  | d :: ds => if c.score > d.score then c :: d :: ds else d :: insertDesc c ds

/-- `sorted(candidates, key=lambda z: z["score"], reverse=True)`. -/
def sortDesc (l : List Candidate) : List Candidate :=
  l.foldl (fun acc c => insertDesc c acc) []

namespace PS

/-- `SANCTION_ALIASES` table. -/
def SANCTION_ALIASES : List (Str × Str) :=
  [("ukraise".data, "ukraine".data), ("u k r a i s e".data, "ukraine".data)]

/-- `_norm`: for falsy (empty) input return `""`; otherwise strip, lower-case,
collapse runs of the `normPunct` class to single spaces, collapse whitespace
runs to single spaces, and strip. -/
def _norm (s : Str) : Str :=
  if s = [] then []
  else pyStrip (subRuns pyWs [' '] (subRuns normPunct [' '] (pyLower (pyStrip s))))

/-- `canonical_country`, `paymentscreening.py` form:
`if s in SANCTION_ALIASES: return SANCTION_ALIASES[s]` / `return s`. -/
def canonical_country (s : Str) : Str :=
  let n := _norm s
  if n = [] then []
  else
    match SANCTION_ALIASES.lookup n with
    | some v => v
    | none => n

def SANCTIONED_COUNTRIES_RAW : List Str :=
  ["pakistan".data, "iran".data, "syria".data, "ukraine".data, "cuba".data,
   "south korea".data]

/-- `SANCTIONED_COUNTRIES = set(canonical_country(c) for c in RAW)`.  A Python
set iterates in an order that is deterministic within one process; it is
modelled by the (deduplicated) insertion order, the same in all three files. -/
def SANCTIONED_COUNTRIES : List Str :=
  (SANCTIONED_COUNTRIES_RAW.map canonical_country).dedup

/-- `address_has_sanctioned_country`: normalise the address and return the
first sanctioned country appearing as a whole word/phrase, if any. -/
def address_has_sanctioned_country (addr : Str) : Bool × Option Str :=
  let text := _norm addr
  match SANCTIONED_COUNTRIES.find? (fun sc => searchWord sc text) with
  | some sc => (true, some sc)
  | none => (false, none)

/-- `is_sanctioned_country`: canonicalise and test membership. -/
def is_sanctioned_country (countryStr : Str) : Bool × Str :=
  let can := canonical_country countryStr
  (SANCTIONED_COUNTRIES.contains can, can)

/-- The seven whole-word abbreviation substitutions of `ABBR`, in table
order. -/
def ABBR_WORDS : List (Str × Str) :=
  [("st".data, "street".data), ("str".data, "street".data), ("rd".data, "road".data),
   ("ave".data, "avenue".data), ("av".data, "avenue".data),
   ("blvd".data, "boulevard".data), ("ln".data, "lane".data)]

def subWords (s : Str) : Str := ABBR_WORDS.foldl (fun t kv => subWord kv.1 kv.2 t) s

/-- `normalize_text`: for falsy input return `""`; otherwise lower-case,
collapse runs of the `textPunct` class to single spaces, apply the `ABBR`
table (the seven whole-word substitutions in order, then the `p.o. box`
pattern), collapse whitespace runs to single spaces, and strip. -/
def normalize_text (s : Str) : Str :=
  if s = [] then []
  else pyStrip (subRuns pyWs [' '] (subPoBox (subWords (subRuns textPunct [' '] (pyLower s)))))

/-- `tokenize`: the non-empty pieces of `re.split(r"\s+", normalize_text s)`. -/
def tokenize (s : Str) : List Str := tokensA [] (normalize_text s)

/-- `jaccard` on token lists: set intersection over set union. -/
def jaccard (aToks bToks : List Str) : ℚ :=
  let A := aToks.toFinset
  let B := bToks.toFinset
  if A = ∅ ∧ B = ∅ then 1
  else if A = ∅ ∨ B = ∅ then 0
  else ((A ∩ B).card : ℚ) / ((A ∪ B).card : ℚ)

/-- `jaro_similarity`.  `max(len1,len2)//2 - 1` is computed in `ℤ` (it is `-1`
when both strings have length 1). -/
def jaro_similarity (s1 s2 : Str) : ℚ :=
  if s1 = s2 then 1
  else
    let len1 := s1.length
    let len2 := s2.length
    if len1 = 0 ∨ len2 = 0 then 0
    else
      let maxDist : ℤ := (max len1 len2 : ℤ) / 2 - 1
      let res := phase1 s2 maxDist s1 0 (List.replicate len2 false)
      let m := res.2.2
      if m = 0 then 0
      else
        let t := phase2 s2 res.2.1 (s1.zip res.1) 0 / 2
        ((m : ℚ) / len1 + (m : ℚ) / len2 + ((m : ℚ) - t) / m) / 3

/-- `jaro_winkler` with the default parameters `p = 0.1`, `max_l = 4` (the
only ones the sources ever use). -/
def jaro_winkler (s1 s2 : Str) : ℚ :=
  let s1n := normalize_text s1
  let s2n := normalize_text s2
  let j := jaro_similarity s1n s2n
  let l : ℕ := winklerPrefixLen 4 s1n s2n 0
  j + (l : ℚ) * (1 / 10) * (1 - j)

/-- `name_similarity`: the maximum, over the primary name and every alias, of
the Jaro-Winkler score and half the token Jaccard score. -/
def name_similarity (inputName wlName : Str) (wlAka : List Str) : ℚ :=
  let cands := wlName :: wlAka
  maxQ (cands.flatMap (fun cand =>
    [jaro_winkler inputName cand,
     (1 / 2) * jaccard (tokenize inputName) (tokenize cand)]))

/-- `address_similarity = 0.4 * jaro_winkler + 0.6 * jaccard`. -/
def address_similarity (inputAddr wlAddr : Str) : ℚ :=
  (4 / 10) * jaro_winkler inputAddr wlAddr +
    (6 / 10) * jaccard (tokenize inputAddr) (tokenize wlAddr)

/-- `dob_similarity`: `0` when either date is falsy (`None` or empty) or fails
to parse; `1` exactly when both parse to the same calendar date. -/
def dob_similarity (inputDob : Str) (wlDob : Option Str) : ℚ :=
  if inputDob = [] ∨ wlDob = none ∨ wlDob = some [] then 0
  else
    match strptimeDate inputDob, strptimeDate (wlDob.getD []) with
    | some d1, some d2 => if d1 = d2 then 1 else 0
    | _, _ => 0

/-- `country_bonus`: `0.05` when the normalised, upper-cased country strings
are equal, `0` otherwise (and `0` when either side is falsy). -/
def country_bonus (inputCountry wlCountry : Str) : ℚ :=
  if inputCountry = [] ∨ wlCountry = [] then 0
  else if pyUpper (_norm inputCountry) = pyUpper (_norm wlCountry) then 5 / 100 else 0

/-- `composite_risk_score`: the weighted blend capped at `1.0`, together with
the breakdown carrying the sub-scores and the two sanction-detector outputs on
the input party. -/
def composite_risk_score (nameIn addrIn countryIn dobIn : Str) (wl : Entry) :
    ℚ × Breakdown :=
  let n := name_similarity nameIn wl.name wl.aka
  let a := address_similarity addrIn wl.address
  let d := dob_similarity dobIn wl.dob
  let c := country_bonus countryIn wl.country
  let score := min 1 ((6 / 10) * n + (3 / 10) * a + (5 / 100) * d + c)
  let ps := is_sanctioned_country countryIn
  let ah := address_has_sanctioned_country addrIn
  (score,
   { name := n, address := a, dob := d, country := c,
      sanction_party_country := ps.1,
      sanction_party_country_name := if ps.1 then some ps.2 else none,
      sanction_address_hit := ah.1,
      sanction_address_match := ah.2 })

/-- The static `WATCHLIST`. -/
def WATCHLIST : List Entry :=
  [{ name := "Mohammad Al Hamed".data,
      aka := ["Mohammed Al-Hameed".data, "Mohamad Alhammad".data],
      address := "12 King Faisal Road, Manama, Bahrain".data,
      country := "BH".data, dob := some "1978-04-09".data,
      list := "UN Sanctions".data, category := "Terrorism".data },
   { name := "Zhang Wei".data,
      aka := ["Wei Chang".data, "Z. Wei".data],
      address := "66 Nanjing West Road, Jing'an, Shanghai, China".data,
      country := "CN".data, dob := some "1983-11-23".data,
      list := "OFAC SDN".data, category := "Proliferation".data },
   { name := "Hafiz Mohammed".data,
      aka := ["Karachi".data, "Pakistan".data],
      address := "Karachi, Pakistan".data,
      country := "PK".data, dob := some "1990-02-01".data,
      list := "EU Consolidated".data, category := "Corruption".data },
   { name := "Global Trade LLC".data,
      aka := ["Global Trading Limited".data, "Global Trade Co.".data],
      address := "PO Box 12345, Dubai, United Arab Emirates".data,
      country := "AE".data, dob := none,
      list := "Internal Watch".data, category := "Adverse Media".data }]

def THRESHOLD : ℚ := 8 / 10

/-- The candidate list in generation order: for each watchlist entry, the
payer candidate then the beneficiary candidate.  The source reads the
module-level `WATCHLIST`; the table is passed as an argument here so that the
claims can be stated for every watchlist. -/
def candidatesOf (watchlist : List Entry) (p : Payload) : List Candidate :=
  watchlist.flatMap (fun wl =>
    let pb := composite_risk_score p.payer_name p.payer_address p.payer_country p.payer_dob wl
    let bb := composite_risk_score p.benef_name p.benef_address p.benef_country p.benef_dob wl
    [{ role := "PAYER".data, wl := wl, score := pb.1, breakdown := pb.2 },
     { role := "BENEFICIARY".data, wl := wl, score := bb.1, breakdown := bb.2 }])

/-- The reason lines one breakdown contributes, in source order (party-country
reason, then address reason). -/
def roleReasons (role : Str) (bd : Breakdown) : List Str :=
  (if bd.sanction_party_country then
     [role ++ " country in sanctioned list: ".data ++ bd.sanction_party_country_name.getD []]
   else []) ++
  (if bd.sanction_address_hit then
     [role ++ " address mentions sanctioned country: ".data ++ bd.sanction_address_match.getD []]
   else [])

/-- The ordered sanction reason lines: per watchlist entry, payer first then
beneficiary. -/
def sanctionReasonsOf (watchlist : List Entry) (p : Payload) : List Str :=
  watchlist.flatMap (fun wl =>
    let pb := composite_risk_score p.payer_name p.payer_address p.payer_country p.payer_dob wl
    let bb := composite_risk_score p.benef_name p.benef_address p.benef_country p.benef_dob wl
    roleReasons "PAYER".data pb.2 ++ roleReasons "BENEFICIARY".data bb.2)

/-- `sanction_flag_any`: set as soon as any breakdown of the loop shows a
sanctioned party country or a sanctioned address mention; equivalently, any
candidate's breakdown does. -/
def sanctionFlagOf (watchlist : List Entry) (p : Payload) : Bool :=
  (candidatesOf watchlist p).any
    (fun c => c.breakdown.sanction_party_country || c.breakdown.sanction_address_hit)

/-- `screen_payment`, returning the 9-tuple as a record. -/
def screen_payment (watchlist : List Entry) (p : Payload) : ScreenResult :=
  let cands := candidatesOf watchlist p
  let flag := sanctionFlagOf watchlist p
  let best := pyMaxCand cands
  let score := match best with | some c => c.score | none => 0
  { decision :=
      if flag then "ESCALATE".data
      else if score ≥ THRESHOLD then "ESCALATE".data else "RELEASE".data,
    reason :=
      if flag then "Sanctioned Country".data
      else if score ≥ THRESHOLD then "Score Threshold".data else "Below Threshold".data,
    best_role := best.map (·.role),
    best_wl := best.map (·.wl),
    best_score := score,
    best_breakdown := best.map (·.breakdown),
    sanction_flag := flag,
    sanction_reasons := sanctionReasonsOf watchlist p,
    candidates := sortDesc cands }

end PS

namespace V3

/-- `SANCTION_ALIASES` table. -/
def SANCTION_ALIASES : List (Str × Str) :=
  [("ukraise".data, "ukraine".data), ("u k r a i s e".data, "ukraine".data)]

/-- `_norm`: for falsy (empty) input return `""`; otherwise strip, lower-case,
collapse runs of the `normPunct` class to single spaces, collapse whitespace
runs to single spaces, and strip. -/
def _norm (s : Str) : Str :=
  if s = [] then []
  else pyStrip (subRuns pyWs [' '] (subRuns normPunct [' '] (pyLower (pyStrip s))))

/-- `canonical_country`, `paymentscreening_v3.py` form:
`return SANCTION_ALIASES.get(s, s)`. -/
def canonical_country (s : Str) : Str :=
  let n := _norm s
  if n = [] then []
  else (SANCTION_ALIASES.lookup n).getD n

def SANCTIONED_COUNTRIES_RAW : List Str :=
  ["pakistan".data, "iran".data, "syria".data, "ukraine".data, "cuba".data,
   "south korea".data]

/-- `SANCTIONED_COUNTRIES = set(canonical_country(c) for c in RAW)`.  A Python
set iterates in an order that is deterministic within one process; it is
modelled by the (deduplicated) insertion order, the same in all three files. -/
def SANCTIONED_COUNTRIES : List Str :=
  (SANCTIONED_COUNTRIES_RAW.map canonical_country).dedup

/-- `address_has_sanctioned_country`: normalise the address and return the
first sanctioned country appearing as a whole word/phrase, if any. -/
def address_has_sanctioned_country (addr : Str) : Bool × Option Str :=
  let text := _norm addr
  match SANCTIONED_COUNTRIES.find? (fun sc => searchWord sc text) with
  | some sc => (true, some sc)
  | none => (false, none)

/-- `is_sanctioned_country`: canonicalise and test membership. -/
def is_sanctioned_country (countryStr : Str) : Bool × Str :=
  let can := canonical_country countryStr
  (SANCTIONED_COUNTRIES.contains can, can)

/-- The seven whole-word abbreviation substitutions of `ABBR`, in table
order. -/
def ABBR_WORDS : List (Str × Str) :=
  [("st".data, "street".data), ("str".data, "street".data), ("rd".data, "road".data),
   ("ave".data, "avenue".data), ("av".data, "avenue".data),
   ("blvd".data, "boulevard".data), ("ln".data, "lane".data)]

def subWords (s : Str) : Str := ABBR_WORDS.foldl (fun t kv => subWord kv.1 kv.2 t) s

/-- `normalize_text`: for falsy input return `""`; otherwise lower-case,
collapse runs of the `textPunct` class to single spaces, apply the `ABBR`
table (the seven whole-word substitutions in order, then the `p.o. box`
pattern), collapse whitespace runs to single spaces, and strip. -/
def normalize_text (s : Str) : Str :=
  if s = [] then []
  else pyStrip (subRuns pyWs [' '] (subPoBox (subWords (subRuns textPunct [' '] (pyLower s)))))

/-- `tokenize`: the non-empty pieces of `re.split(r"\s+", normalize_text s)`. -/
def tokenize (s : Str) : List Str := tokensA [] (normalize_text s)

/-- `jaccard` on token lists: set intersection over set union. -/
def jaccard (aToks bToks : List Str) : ℚ :=
  let A := aToks.toFinset
  let B := bToks.toFinset
  if A = ∅ ∧ B = ∅ then 1
  else if A = ∅ ∨ B = ∅ then 0
  else ((A ∩ B).card : ℚ) / ((A ∪ B).card : ℚ)

/-- `jaro_similarity`.  `max(len1,len2)//2 - 1` is computed in `ℤ` (it is `-1`
when both strings have length 1). -/
def jaro_similarity (s1 s2 : Str) : ℚ :=
  if s1 = s2 then 1
  else
    let len1 := s1.length
    let len2 := s2.length
    if len1 = 0 ∨ len2 = 0 then 0
    else
      let maxDist : ℤ := (max len1 len2 : ℤ) / 2 - 1
      let res := phase1 s2 maxDist s1 0 (List.replicate len2 false)
      let m := res.2.2
      if m = 0 then 0
      else
        let t := phase2 s2 res.2.1 (s1.zip res.1) 0 / 2
        ((m : ℚ) / len1 + (m : ℚ) / len2 + ((m : ℚ) - t) / m) / 3

/-- `jaro_winkler` with the default parameters `p = 0.1`, `max_l = 4` (the
only ones the sources ever use). -/
def jaro_winkler (s1 s2 : Str) : ℚ :=
  let s1n := normalize_text s1
  let s2n := normalize_text s2
  let j := jaro_similarity s1n s2n
  let l : ℕ := winklerPrefixLen 4 s1n s2n 0
  j + (l : ℚ) * (1 / 10) * (1 - j)

/-- `name_similarity`: the maximum, over the primary name and every alias, of
the Jaro-Winkler score and half the token Jaccard score. -/
def name_similarity (inputName wlName : Str) (wlAka : List Str) : ℚ :=
  let cands := wlName :: wlAka
  maxQ (cands.flatMap (fun cand =>
    [jaro_winkler inputName cand,
     (1 / 2) * jaccard (tokenize inputName) (tokenize cand)]))

/-- `address_similarity = 0.4 * jaro_winkler + 0.6 * jaccard`. -/
def address_similarity (inputAddr wlAddr : Str) : ℚ :=
  (4 / 10) * jaro_winkler inputAddr wlAddr +
    (6 / 10) * jaccard (tokenize inputAddr) (tokenize wlAddr)

/-- `dob_similarity`: `0` when either date is falsy (`None` or empty) or fails
to parse; `1` exactly when both parse to the same calendar date. -/
def dob_similarity (inputDob : Str) (wlDob : Option Str) : ℚ :=
  if inputDob = [] ∨ wlDob = none ∨ wlDob = some [] then 0
  else
    match strptimeDate inputDob, strptimeDate (wlDob.getD []) with
    | some d1, some d2 => if d1 = d2 then 1 else 0
    | _, _ => 0

/-- `country_bonus`: `0.05` when the normalised, upper-cased country strings
are equal, `0` otherwise (and `0` when either side is falsy). -/
def country_bonus (inputCountry wlCountry : Str) : ℚ :=
  if inputCountry = [] ∨ wlCountry = [] then 0
  else if pyUpper (_norm inputCountry) = pyUpper (_norm wlCountry) then 5 / 100 else 0

/-- `composite_risk_score`: the weighted blend capped at `1.0`, together with
the breakdown carrying the sub-scores and the two sanction-detector outputs on
the input party. -/
def composite_risk_score (nameIn addrIn countryIn dobIn : Str) (wl : Entry) :
    ℚ × Breakdown :=
  let n := name_similarity nameIn wl.name wl.aka
  let a := address_similarity addrIn wl.address
  let d := dob_similarity dobIn wl.dob
  let c := country_bonus countryIn wl.country
  let score := min 1 ((6 / 10) * n + (3 / 10) * a + (5 / 100) * d + c)
  let ps := is_sanctioned_country countryIn
  let ah := address_has_sanctioned_country addrIn
  (score,
   { name := n, address := a, dob := d, country := c,
      sanction_party_country := ps.1,
      sanction_party_country_name := if ps.1 then some ps.2 else none,
      sanction_address_hit := ah.1,
      sanction_address_match := ah.2 })

/-- The static `WATCHLIST`. -/
def WATCHLIST : List Entry :=
  [{ name := "Mohammad Al Hamed".data,
      aka := ["Mohammed Al-Hameed".data, "Mohamad Alhammad".data],
      address := "12 King Faisal Road, Manama, Bahrain".data,
      country := "BH".data, dob := some "1978-04-09".data,
      list := "UN Sanctions".data, category := "Terrorism".data },
   { name := "Zhang Wei".data,
      aka := ["Wei Chang".data, "Z. Wei".data],
      address := "66 Nanjing West Road, Jing'an, Shanghai, China".data,
      country := "CN".data, dob := some "1983-11-23".data,
      list := "OFAC SDN".data, category := "Proliferation".data },
   { name := "Hafiz Mohammed".data,
      aka := ["Karachi".data, "Pakistan".data],
      address := "Karachi, Pakistan".data,
      country := "PK".data, dob := some "1990-02-01".data,
      list := "EU Consolidated".data, category := "Corruption".data },
   { name := "Global Trade LLC".data,
      aka := ["Global Trading Limited".data, "Global Trade Co.".data],
      address := "PO Box 12345, Dubai, United Arab Emirates".data,
      country := "AE".data, dob := none,
      list := "Internal Watch".data, category := "Adverse Media".data }]

def THRESHOLD : ℚ := 8 / 10

/-- The candidate list in generation order: for each watchlist entry, the
payer candidate then the beneficiary candidate.  The source reads the
module-level `WATCHLIST`; the table is passed as an argument here so that the
claims can be stated for every watchlist. -/
def candidatesOf (watchlist : List Entry) (p : Payload) : List Candidate :=
  watchlist.flatMap (fun wl =>
    let pb := composite_risk_score p.payer_name p.payer_address p.payer_country p.payer_dob wl
    let bb := composite_risk_score p.benef_name p.benef_address p.benef_country p.benef_dob wl
    [{ role := "PAYER".data, wl := wl, score := pb.1, breakdown := pb.2 },
     { role := "BENEFICIARY".data, wl := wl, score := bb.1, breakdown := bb.2 }])

/-- The reason lines one breakdown contributes, in source order (party-country
reason, then address reason). -/
def roleReasons (role : Str) (bd : Breakdown) : List Str :=
  (if bd.sanction_party_country then
     [role ++ " country in sanctioned list: ".data ++ bd.sanction_party_country_name.getD []]
   else []) ++
  (if bd.sanction_address_hit then
     [role ++ " address mentions sanctioned country: ".data ++ bd.sanction_address_match.getD []]
   else [])

/-- The ordered sanction reason lines: per watchlist entry, payer first then
beneficiary. -/
def sanctionReasonsOf (watchlist : List Entry) (p : Payload) : List Str :=
  watchlist.flatMap (fun wl =>
    let pb := composite_risk_score p.payer_name p.payer_address p.payer_country p.payer_dob wl
    let bb := composite_risk_score p.benef_name p.benef_address p.benef_country p.benef_dob wl
    roleReasons "PAYER".data pb.2 ++ roleReasons "BENEFICIARY".data bb.2)

/-- `sanction_flag_any`: set as soon as any breakdown of the loop shows a
sanctioned party country or a sanctioned address mention; equivalently, any
candidate's breakdown does. -/
def sanctionFlagOf (watchlist : List Entry) (p : Payload) : Bool :=
  (candidatesOf watchlist p).any
    (fun c => c.breakdown.sanction_party_country || c.breakdown.sanction_address_hit)

/-- `screen_payment`, returning the 9-tuple as a record. -/
def screen_payment (watchlist : List Entry) (p : Payload) : ScreenResult :=
  let cands := candidatesOf watchlist p
  let flag := sanctionFlagOf watchlist p
  let best := pyMaxCand cands
  let score := match best with | some c => c.score | none => 0
  { decision :=
      if flag then "ESCALATE".data
      else if score ≥ THRESHOLD then "ESCALATE".data else "RELEASE".data,
    reason :=
      if flag then "Sanctioned Country".data
      else if score ≥ THRESHOLD then "Score Threshold".data else "Below Threshold".data,
    best_role := best.map (·.role),
    best_wl := best.map (·.wl),
    best_score := score,
    best_breakdown := best.map (·.breakdown),
    sanction_flag := flag,
    sanction_reasons := sanctionReasonsOf watchlist p,
    candidates := sortDesc cands }

end V3

namespace Api

/-- `SANCTION_ALIASES` table. -/
def SANCTION_ALIASES : List (Str × Str) :=
  [("ukraise".data, "ukraine".data), ("u k r a i s e".data, "ukraine".data)]

/-- `_norm`: for falsy (empty) input return `""`; otherwise strip, lower-case,
collapse runs of the `normPunct` class to single spaces, collapse whitespace
runs to single spaces, and strip. -/
def _norm (s : Str) : Str :=
  if s = [] then []
  else pyStrip (subRuns pyWs [' '] (subRuns normPunct [' '] (pyLower (pyStrip s))))

/-- `canonical_country`, `payment_screening_api.py` form:
`return SANCTION_ALIASES.get(s, s)`. -/
def canonical_country (s : Str) : Str :=
  let n := _norm s
  if n = [] then []
  else (SANCTION_ALIASES.lookup n).getD n

def SANCTIONED_COUNTRIES_RAW : List Str :=
  ["pakistan".data, "iran".data, "syria".data, "ukraine".data, "cuba".data,
   "south korea".data]

/-- `SANCTIONED_COUNTRIES = set(canonical_country(c) for c in RAW)`.  A Python
set iterates in an order that is deterministic within one process; it is
modelled by the (deduplicated) insertion order, the same in all three files. -/
def SANCTIONED_COUNTRIES : List Str :=
  (SANCTIONED_COUNTRIES_RAW.map canonical_country).dedup

/-- `address_has_sanctioned_country`: normalise the address and return the
first sanctioned country appearing as a whole word/phrase, if any. -/
def address_has_sanctioned_country (addr : Str) : Bool × Option Str :=
  let text := _norm addr
  match SANCTIONED_COUNTRIES.find? (fun sc => searchWord sc text) with
  | some sc => (true, some sc)
  | none => (false, none)

/-- `is_sanctioned_country`: canonicalise and test membership. -/
def is_sanctioned_country (countryStr : Str) : Bool × Str :=
  let can := canonical_country countryStr
  (SANCTIONED_COUNTRIES.contains can, can)

/-- The seven whole-word abbreviation substitutions of `ABBR`, in table
order. -/
def ABBR_WORDS : List (Str × Str) :=
  [("st".data, "street".data), ("str".data, "street".data), ("rd".data, "road".data),
   ("ave".data, "avenue".data), ("av".data, "avenue".data),
   ("blvd".data, "boulevard".data), ("ln".data, "lane".data)]

def subWords (s : Str) : Str := ABBR_WORDS.foldl (fun t kv => subWord kv.1 kv.2 t) s

/-- `normalize_text`: for falsy input return `""`; otherwise lower-case,
collapse runs of the `textPunct` class to single spaces, apply the `ABBR`
table (the seven whole-word substitutions in order, then the `p.o. box`
pattern), collapse whitespace runs to single spaces, and strip. -/
def normalize_text (s : Str) : Str :=
  if s = [] then []
  else pyStrip (subRuns pyWs [' '] (subPoBox (subWords (subRuns textPunct [' '] (pyLower s)))))

/-- `tokenize`: the non-empty pieces of `re.split(r"\s+", normalize_text s)`. -/
def tokenize (s : Str) : List Str := tokensA [] (normalize_text s)

/-- `jaccard` on token lists: set intersection over set union. -/
def jaccard (aToks bToks : List Str) : ℚ :=
  let A := aToks.toFinset
  let B := bToks.toFinset
  if A = ∅ ∧ B = ∅ then 1
  else if A = ∅ ∨ B = ∅ then 0
  else ((A ∩ B).card : ℚ) / ((A ∪ B).card : ℚ)

/-- `jaro_similarity`.  `max(len1,len2)//2 - 1` is computed in `ℤ` (it is `-1`
when both strings have length 1). -/
def jaro_similarity (s1 s2 : Str) : ℚ :=
  if s1 = s2 then 1
  else
    let len1 := s1.length
    let len2 := s2.length
    if len1 = 0 ∨ len2 = 0 then 0
    else
      let maxDist : ℤ := (max len1 len2 : ℤ) / 2 - 1
      let res := phase1 s2 maxDist s1 0 (List.replicate len2 false)
      let m := res.2.2
      if m = 0 then 0
      else
        let t := phase2 s2 res.2.1 (s1.zip res.1) 0 / 2
        ((m : ℚ) / len1 + (m : ℚ) / len2 + ((m : ℚ) - t) / m) / 3

/-- `jaro_winkler` with the default parameters `p = 0.1`, `max_l = 4` (the
only ones the sources ever use). -/
def jaro_winkler (s1 s2 : Str) : ℚ :=
  let s1n := normalize_text s1
  let s2n := normalize_text s2
  let j := jaro_similarity s1n s2n
  let l : ℕ := winklerPrefixLen 4 s1n s2n 0
  j + (l : ℚ) * (1 / 10) * (1 - j)

/-- `name_similarity`: the maximum, over the primary name and every alias, of
the Jaro-Winkler score and half the token Jaccard score. -/
def name_similarity (inputName wlName : Str) (wlAka : List Str) : ℚ :=
  let cands := wlName :: wlAka
  maxQ (cands.flatMap (fun cand =>
    [jaro_winkler inputName cand,
     (1 / 2) * jaccard (tokenize inputName) (tokenize cand)]))

/-- `address_similarity = 0.4 * jaro_winkler + 0.6 * jaccard`. -/
def address_similarity (inputAddr wlAddr : Str) : ℚ :=
  (4 / 10) * jaro_winkler inputAddr wlAddr +
    (6 / 10) * jaccard (tokenize inputAddr) (tokenize wlAddr)

/-- `dob_similarity`: `0` when either date is falsy (`None` or empty) or fails
to parse; `1` exactly when both parse to the same calendar date. -/
def dob_similarity (inputDob : Str) (wlDob : Option Str) : ℚ :=
  if inputDob = [] ∨ wlDob = none ∨ wlDob = some [] then 0
  else
    match strptimeDate inputDob, strptimeDate (wlDob.getD []) with
    | some d1, some d2 => if d1 = d2 then 1 else 0
    | _, _ => 0

/-- `country_bonus`: `0.05` when the normalised, upper-cased country strings
are equal, `0` otherwise (and `0` when either side is falsy). -/
def country_bonus (inputCountry wlCountry : Str) : ℚ :=
  if inputCountry = [] ∨ wlCountry = [] then 0
  else if pyUpper (_norm inputCountry) = pyUpper (_norm wlCountry) then 5 / 100 else 0

/-- `composite_risk_score`: the weighted blend capped at `1.0`, together with
the breakdown carrying the sub-scores and the two sanction-detector outputs on
the input party. -/
def composite_risk_score (nameIn addrIn countryIn dobIn : Str) (wl : Entry) :
    ℚ × Breakdown :=
  let n := name_similarity nameIn wl.name wl.aka
  let a := address_similarity addrIn wl.address
  let d := dob_similarity dobIn wl.dob
  let c := country_bonus countryIn wl.country
  let score := min 1 ((6 / 10) * n + (3 / 10) * a + (5 / 100) * d + c)
  let ps := is_sanctioned_country countryIn
  let ah := address_has_sanctioned_country addrIn
  (score,
   { name := n, address := a, dob := d, country := c,
      sanction_party_country := ps.1,
      sanction_party_country_name := if ps.1 then some ps.2 else none,
      sanction_address_hit := ah.1,
      sanction_address_match := ah.2 })

/-- The static `WATCHLIST`. -/
def WATCHLIST : List Entry :=
  [{ name := "Mohammad Al Hamed".data,
      aka := ["Mohammed Al-Hameed".data, "Mohamad Alhammad".data],
      address := "12 King Faisal Road, Manama, Bahrain".data,
      country := "BH".data, dob := some "1978-04-09".data,
      list := "UN Sanctions".data, category := "Terrorism".data },
   { name := "Zhang Wei".data,
      aka := ["Wei Chang".data, "Z. Wei".data],
      address := "66 Nanjing West Road, Jing'an, Shanghai, China".data,
      country := "CN".data, dob := some "1983-11-23".data,
      list := "OFAC SDN".data, category := "Proliferation".data },
   { name := "Hafiz Mohammed".data,
      aka := ["Karachi".data, "Pakistan".data],
      address := "Karachi, Pakistan".data,
      country := "PK".data, dob := some "1990-02-01".data,
      list := "EU Consolidated".data, category := "Corruption".data },
   { name := "Global Trade LLC".data,
      aka := ["Global Trading Limited".data, "Global Trade Co.".data],
      address := "PO Box 12345, Dubai, United Arab Emirates".data,
      country := "AE".data, dob := none,
      list := "Internal Watch".data, category := "Adverse Media".data }]

def THRESHOLD : ℚ := 8 / 10

/-- The candidate list in generation order: for each watchlist entry, the
payer candidate then the beneficiary candidate.  The source reads the
module-level `WATCHLIST`; the table is passed as an argument here so that the
claims can be stated for every watchlist. -/
def candidatesOf (watchlist : List Entry) (p : Payload) : List Candidate :=
  watchlist.flatMap (fun wl =>
    let pb := composite_risk_score p.payer_name p.payer_address p.payer_country p.payer_dob wl
    let bb := composite_risk_score p.benef_name p.benef_address p.benef_country p.benef_dob wl
    [{ role := "PAYER".data, wl := wl, score := pb.1, breakdown := pb.2 },
     { role := "BENEFICIARY".data, wl := wl, score := bb.1, breakdown := bb.2 }])

/-- The reason lines one breakdown contributes, in source order (party-country
reason, then address reason). -/
def roleReasons (role : Str) (bd : Breakdown) : List Str :=
  (if bd.sanction_party_country then
     [role ++ " country in sanctioned list: ".data ++ bd.sanction_party_country_name.getD []]
   else []) ++
  (if bd.sanction_address_hit then
     [role ++ " address mentions sanctioned country: ".data ++ bd.sanction_address_match.getD []]
   else [])

/-- The ordered sanction reason lines: per watchlist entry, payer first then
beneficiary. -/
def sanctionReasonsOf (watchlist : List Entry) (p : Payload) : List Str :=
  watchlist.flatMap (fun wl =>
    let pb := composite_risk_score p.payer_name p.payer_address p.payer_country p.payer_dob wl
    let bb := composite_risk_score p.benef_name p.benef_address p.benef_country p.benef_dob wl
    roleReasons "PAYER".data pb.2 ++ roleReasons "BENEFICIARY".data bb.2)

/-- `sanction_flag_any`: set as soon as any breakdown of the loop shows a
sanctioned party country or a sanctioned address mention; equivalently, any
candidate's breakdown does. -/
def sanctionFlagOf (watchlist : List Entry) (p : Payload) : Bool :=
  (candidatesOf watchlist p).any
    (fun c => c.breakdown.sanction_party_country || c.breakdown.sanction_address_hit)

/-- `screen_payment`, returning the result dictionary as a record. -/
def screen_payment (watchlist : List Entry) (p : Payload) : ApiResult :=
  let cands := candidatesOf watchlist p
  let flag := sanctionFlagOf watchlist p
  let best := pyMaxCand cands
  let score := match best with | some c => c.score | none => 0
  { decision :=
      if flag then "ESCALATE".data
      else if score ≥ THRESHOLD then "ESCALATE".data else "RELEASE".data,
    reason :=
      if flag then "Sanctioned Country".data
      else if score ≥ THRESHOLD then "Score Threshold".data else "Below Threshold".data,
    best_role := best.map (·.role),
    best_wl := best.map (·.wl),
    best_score := score,
    breakdown := best.map (·.breakdown),
    sanction_flag := flag,
    sanction_reasons := sanctionReasonsOf watchlist p,
    candidates := sortDesc cands }

end Api

/-! ## Verification -/

/-- Claim C4: for every party input and watchlist entry, the composite total
score equals `min(1.0, 0.60*name + 0.30*address + 0.05*dob + country_bonus)`,
where the four sub-scores are the ones reported in the same breakdown. -/
theorem composite_score_is_clamped_blend (nameIn addrIn countryIn dobIn : Str) (wl : Entry) :
    (PS.composite_risk_score nameIn addrIn countryIn dobIn wl).1 =
      min 1 ((6 / 10) * (PS.composite_risk_score nameIn addrIn countryIn dobIn wl).2.name
        + (3 / 10) * (PS.composite_risk_score nameIn addrIn countryIn dobIn wl).2.address
        + (5 / 100) * (PS.composite_risk_score nameIn addrIn countryIn dobIn wl).2.dob
        + (PS.composite_risk_score nameIn addrIn countryIn dobIn wl).2.country) := rfl

/-- Claim C6: `jaro_similarity "" "" = 1.0`: the equal-strings shortcut fires
before the empty-string check. -/
theorem jaro_empty_empty : PS.jaro_similarity [] [] = 1 := rfl

/-- Claim C8: `jaro_winkler x x = 1.0` for every string, with the default
parameters. -/
theorem jaro_winkler_self (x : Str) : PS.jaro_winkler x x = 1 := by
  simp [PS.jaro_winkler, PS.jaro_similarity]
/-- The tiny watchlist entry used by the concrete screening witnesses. -/
def tinyEntry : Entry :=
  { name := "a".data, aka := [], address := "b".data, country := "c".data,
    dob := none, list := "l".data, category := "t".data }

/-- A payload whose payer country is a sanctioned country and whose other
fields are tiny non-matching strings. -/
def payloadSanc : Payload :=
  { payer_name := "q".data, payer_address := "w".data, payer_country := "pakistan".data,
    payer_dob := [], benef_name := "e".data, benef_address := "r".data,
    benef_country := "t".data, benef_dob := [] }

/-- Claim C1: if any candidate breakdown has the sanctioned-party-country flag
or the sanctioned-address-mention flag set, the decision is `ESCALATE` with
reason `Sanctioned Country`, regardless of the scores. -/
theorem sanction_flag_escalates (watchlist : List Entry) (p : Payload)
    (h : ∃ c ∈ PS.candidatesOf watchlist p,
      c.breakdown.sanction_party_country = true ∨ c.breakdown.sanction_address_hit = true) :
    (PS.screen_payment watchlist p).decision = "ESCALATE".data ∧
      (PS.screen_payment watchlist p).reason = "Sanctioned Country".data := by
  have hf : PS.sanctionFlagOf watchlist p = true := by
    rcases h with ⟨c, hc, hor⟩
    unfold PS.sanctionFlagOf
    rw [List.any_eq_true]
    exact ⟨c, hc, by rcases hor with h | h <;> simp [h]⟩
  constructor <;> simp [PS.screen_payment, hf]

/-- Concrete instance of claim C1. -/
theorem sanction_flag_escalates_witness :
    (∃ c ∈ PS.candidatesOf [tinyEntry] payloadSanc,
      c.breakdown.sanction_party_country = true ∨ c.breakdown.sanction_address_hit = true) ∧
    (PS.screen_payment [tinyEntry] payloadSanc).decision = "ESCALATE".data ∧
      (PS.screen_payment [tinyEntry] payloadSanc).reason = "Sanctioned Country".data :=
  ⟨by decide, sanction_flag_escalates [tinyEntry] payloadSanc (by decide)⟩
/-- A payload with tiny non-matching fields and no sanctioned references. -/
def payloadPlain : Payload :=
  { payer_name := "q".data, payer_address := "w".data, payer_country := "d".data,
    payer_dob := [], benef_name := "e".data, benef_address := "r".data,
    benef_country := "t".data, benef_dob := [] }

/-- Claim C2: when no candidate breakdown sets a sanction flag, the decision is
`ESCALATE` with reason `Score Threshold` exactly when the best score is at
least `0.80` (so exactly `0.80` escalates), and otherwise `RELEASE` with
reason `Below Threshold`. -/
theorem threshold_decision (watchlist : List Entry) (p : Payload)
    (h : ∀ c ∈ PS.candidatesOf watchlist p,
      c.breakdown.sanction_party_country = false ∧ c.breakdown.sanction_address_hit = false) :
    (((PS.screen_payment watchlist p).decision = "ESCALATE".data ∧
        (PS.screen_payment watchlist p).reason = "Score Threshold".data) ↔
      (8 : ℚ) / 10 ≤ (PS.screen_payment watchlist p).best_score) ∧
    (¬ (8 : ℚ) / 10 ≤ (PS.screen_payment watchlist p).best_score →
      (PS.screen_payment watchlist p).decision = "RELEASE".data ∧
        (PS.screen_payment watchlist p).reason = "Below Threshold".data) := by
  have hf : PS.sanctionFlagOf watchlist p = false := by
    unfold PS.sanctionFlagOf
    rw [List.any_eq_false]
    intro c hc
    rcases h c hc with ⟨h1, h2⟩
    simp [h1, h2]
  have hdec : (PS.screen_payment watchlist p).decision =
      (if PS.THRESHOLD ≤ (PS.screen_payment watchlist p).best_score then "ESCALATE".data
       else "RELEASE".data) := by
    simp only [PS.screen_payment, hf, Bool.false_eq_true, if_false, ge_iff_le]
  have hrsn : (PS.screen_payment watchlist p).reason =
      (if PS.THRESHOLD ≤ (PS.screen_payment watchlist p).best_score then "Score Threshold".data
       else "Below Threshold".data) := by
    simp only [PS.screen_payment, hf, Bool.false_eq_true, if_false, ge_iff_le]
  have hth : PS.THRESHOLD = 8 / 10 := rfl
  by_cases hs : (8 : ℚ) / 10 ≤ (PS.screen_payment watchlist p).best_score
  · simp only [hdec, hrsn, hth, if_pos hs]
    exact ⟨⟨fun _ => hs, fun _ => ⟨trivial, trivial⟩⟩, fun hc => absurd hs hc⟩
  · simp only [hdec, hrsn, hth, if_neg hs]
    refine ⟨⟨fun hc => absurd hc.1 (by decide), fun hc => absurd hc hs⟩, fun _ => ⟨trivial, trivial⟩⟩

/-- Concrete instance of claim C2: an empty watchlist has no sanction hits, a
best score of `0`, and releases. -/
theorem threshold_decision_witness :
    (∀ c ∈ PS.candidatesOf [] payloadPlain,
      c.breakdown.sanction_party_country = false ∧ c.breakdown.sanction_address_hit = false) ∧
    ¬ (8 : ℚ) / 10 ≤ (PS.screen_payment [] payloadPlain).best_score ∧
    ((PS.screen_payment [] payloadPlain).decision = "RELEASE".data ∧
      (PS.screen_payment [] payloadPlain).reason = "Below Threshold".data) := by
  have hs : ¬ (8 : ℚ) / 10 ≤ (PS.screen_payment [] payloadPlain).best_score := by
    have : (PS.screen_payment [] payloadPlain).best_score = 0 := rfl
    rw [this]; norm_num
  exact ⟨by decide, hs, (threshold_decision [] payloadPlain (by decide)).2 hs⟩
/-- Claim C9: `dob_similarity` is total and returns `1` exactly when both
inputs are non-empty and parse as `%Y-%m-%d` dates that are calendar-equal;
in every other case (missing, empty, or unparsable input) it returns `0`. -/
theorem dob_similarity_spec (a : Str) (b : Option Str) :
    (PS.dob_similarity a b = 1 ↔
      a ≠ [] ∧ ∃ s, b = some s ∧ s ≠ [] ∧
        ∃ t, strptimeDate a = some t ∧ strptimeDate s = some t) ∧
    (PS.dob_similarity a b = 0 ∨ PS.dob_similarity a b = 1) := by
  unfold PS.dob_similarity
  by_cases hfalsy : a = [] ∨ b = none ∨ b = some []
  · rw [if_pos hfalsy]
    refine ⟨⟨fun h => absurd h.symm (by norm_num), fun h => ?_⟩, Or.inl rfl⟩
    rcases h with ⟨ha, s, hb, hs, -⟩
    rcases hfalsy with h | h | h
    · exact (ha h).elim
    · rw [h] at hb; exact Option.noConfusion hb
    · rw [h] at hb; exact (hs (Option.some.inj hb).symm).elim
  · rw [if_neg hfalsy]
    push_neg at hfalsy
    obtain ⟨ha, hb, hb'⟩ := hfalsy
    obtain ⟨s, rfl⟩ := Option.ne_none_iff_exists'.mp hb
    have hs : s ≠ [] := fun h => hb' (by rw [h])
    simp only [Option.getD_some]
    have hrhs : (a ≠ [] ∧ ∃ s', (some s : Option Str) = some s' ∧ s' ≠ [] ∧
        ∃ t, strptimeDate a = some t ∧ strptimeDate s' = some t) ↔
        (∃ t, strptimeDate a = some t ∧ strptimeDate s = some t) := by
      constructor
      · rintro ⟨-, s', hss, -, t, h1, h2⟩
        exact ⟨t, h1, (Option.some.inj hss) ▸ h2⟩
      · rintro ⟨t, h1, h2⟩
        exact ⟨ha, s, rfl, hs, t, h1, h2⟩
    rw [hrhs]
    rcases hpa : strptimeDate a with _ | t1 <;> rcases hps : strptimeDate s with _ | t2
    · exact ⟨⟨fun h => absurd h.symm (by norm_num),
        fun ⟨t, ht, _⟩ => Option.noConfusion ht⟩, Or.inl rfl⟩
    · exact ⟨⟨fun h => absurd h.symm (by norm_num),
        fun ⟨t, ht, _⟩ => Option.noConfusion ht⟩, Or.inl rfl⟩
    · exact ⟨⟨fun h => absurd h.symm (by norm_num),
        fun ⟨t, _, ht⟩ => Option.noConfusion ht⟩, Or.inl rfl⟩
    · have hred : (match (some t1 : Option (ℕ × ℕ × ℕ)), (some t2 : Option (ℕ × ℕ × ℕ)) with
          | some d1, some d2 => if d1 = d2 then (1 : ℚ) else 0
          | _, _ => 0) = if t1 = t2 then (1 : ℚ) else 0 := rfl
      rw [hred]
      by_cases he : t1 = t2
      · subst he
        rw [if_pos rfl]
        exact ⟨⟨fun _ => ⟨t1, rfl, rfl⟩, fun _ => rfl⟩, Or.inr rfl⟩
      · rw [if_neg he]
        exact ⟨⟨fun h => absurd h.symm (by norm_num),
          fun ⟨t, h1, h2⟩ => (he (by rw [Option.some.inj h1, Option.some.inj h2])).elim⟩,
          Or.inl rfl⟩
/-! Bounds for the similarity metrics (claim C5). -/

lemma count_set_true {l : List Bool} {j : ℕ} (hj : j < l.length)
    (hf : l.getD j false = false) :
    (l.set j true).count true = l.count true + 1 := by
  induction l generalizing j with
  | nil => simp at hj
  | cons b bs ih =>
    cases j with
    | zero =>
      simp only [List.getD_cons_zero] at hf
      subst hf
      simp [List.set, List.count_cons]
    | succ j =>
      simp only [List.getD_cons_succ] at hf
      simp only [List.length_cons, Nat.succ_lt_succ_iff] at hj
      simp [List.set, List.count_cons, ih hj hf, Nat.add_right_comm]

lemma findJ_spec {ch : Char} {s2 : Str} {s2m : List Bool} {stop : ℕ} :
    ∀ fuel j k, stop - j ≤ fuel → findJ ch s2 s2m stop j = some k →
      j ≤ k ∧ k < stop ∧ s2m.getD k false = false := by
  intro fuel
  induction fuel with
  | zero =>
    intro j k hle h
    rw [findJ] at h
    rcases Nat.lt_or_ge j stop with hj | hj
    · omega
    · rw [if_neg (Nat.not_lt.mpr hj)] at h
      exact Option.noConfusion h
  | succ fuel ih =>
    intro j k hle h
    rw [findJ] at h
    by_cases hj : j < stop
    · rw [if_pos hj] at h
      by_cases hm : s2m.getD j false
      · rw [if_pos hm] at h
        have := ih (j + 1) k (by omega) h
        exact ⟨by omega, this.2.1, this.2.2⟩
      · rw [if_neg hm] at h
        by_cases he : s2.getD j ' ' = ch
        · rw [if_pos he] at h
          cases h
          exact ⟨Nat.le_refl _, hj, by simpa using hm⟩
        · rw [if_neg he] at h
          have := ih (j + 1) k (by omega) h
          exact ⟨by omega, this.2.1, this.2.2⟩
    · rw [if_neg hj] at h
      exact Option.noConfusion h

lemma phase1_spec (s2 : Str) (maxDist : ℤ) :
    ∀ (s1 : Str) (i : ℕ) (s2m : List Bool), s2m.length = s2.length →
      (phase1 s2 maxDist s1 i s2m).1.length = s1.length ∧
      (phase1 s2 maxDist s1 i s2m).1.count true = (phase1 s2 maxDist s1 i s2m).2.2 ∧
      (phase1 s2 maxDist s1 i s2m).2.1.length = s2.length ∧
      (phase1 s2 maxDist s1 i s2m).2.1.count true =
        s2m.count true + (phase1 s2 maxDist s1 i s2m).2.2 := by
  intro s1
  induction s1 with
  | nil => intro i s2m hlen; simp [phase1, hlen]
  | cons c rest ih =>
    intro i s2m hlen
    rw [phase1]
    rcases hJ : findJ c s2 s2m ((min ((i : ℤ) + maxDist + 1) (s2.length : ℤ)).toNat)
        ((max 0 ((i : ℤ) - maxDist)).toNat) with _ | j
    · simp only
      obtain ⟨h1, h2, h3, h4⟩ := ih (i + 1) s2m hlen
      refine ⟨by simp [h1], ?_, h3, by omega⟩
      simp [List.count_cons, h2]
    · have hstop : (min ((i : ℤ) + maxDist + 1) (s2.length : ℤ)).toNat ≤ s2.length := by
        have := Int.toNat_le_toNat (min_le_right ((i : ℤ) + maxDist + 1) (s2.length : ℤ))
        simpa using this
      obtain ⟨-, hjlt, hjf⟩ := @findJ_spec _ _ _ _ _ _ _ (Nat.le_refl _) hJ
      have hjlen : j < s2m.length := by omega
      obtain ⟨h1, h2, h3, h4⟩ := ih (i + 1) (s2m.set j true) (by simp [hlen])
      simp only
      refine ⟨by simp [h1], ?_, h3, ?_⟩
      · simp [List.count_cons, h2]
      · rw [h4, count_set_true hjlen hjf]
        omega

lemma phase2_le (s2 : Str) (s2m : List Bool) :
    ∀ (l : List (Char × Bool)) (k : ℕ),
      phase2 s2 s2m l k ≤ l.countP (fun cb => cb.2) := by
  intro l
  induction l with
  | nil => intro k; simp [phase2]
  | cons cb rest ih =>
    intro k
    obtain ⟨c, m⟩ := cb
    rw [phase2]
    cases m with
    | false => simpa [List.countP_cons] using ih k
    | true =>
      simp only [if_pos rfl, List.countP_cons]
      have h1 := ih (nextSet s2m k + 1)
      have h2 : (if s2.getD (nextSet s2m k) ' ' ≠ c then 1 else 0) ≤ 1 := by
        split <;> omega
      simp only [decide_eq_true_eq, if_true]
      omega

lemma jaroFormula_bounds {M L1 L2 T : ℕ} (hm : 1 ≤ M) (h1 : M ≤ L1) (h2 : M ≤ L2)
    (ht : T ≤ M) :
    0 ≤ ((M : ℚ) / L1 + (M : ℚ) / L2 + ((M : ℚ) - T) / M) / 3 ∧
    ((M : ℚ) / L1 + (M : ℚ) / L2 + ((M : ℚ) - T) / M) / 3 ≤ 1 := by
  have hmq : (1 : ℚ) ≤ (M : ℚ) := by exact_mod_cast hm
  have hl1 : (0 : ℚ) < (L1 : ℚ) := by
    have : 0 < L1 := by omega
    exact_mod_cast this
  have hl2 : (0 : ℚ) < (L2 : ℚ) := by
    have : 0 < L2 := by omega
    exact_mod_cast this
  have hm0 : (0 : ℚ) < (M : ℚ) := by linarith
  have hA : (M : ℚ) ≤ (L1 : ℚ) := by exact_mod_cast h1
  have hB : (M : ℚ) ≤ (L2 : ℚ) := by exact_mod_cast h2
  have hT : (T : ℚ) ≤ (M : ℚ) := by exact_mod_cast ht
  have hT0 : (0 : ℚ) ≤ (T : ℚ) := by positivity
  have e1 : (M : ℚ) / (L1 : ℚ) ≤ 1 := (div_le_one hl1).mpr hA
  have e2 : (M : ℚ) / (L2 : ℚ) ≤ 1 := (div_le_one hl2).mpr hB
  have e3 : ((M : ℚ) - (T : ℚ)) / (M : ℚ) ≤ 1 := (div_le_one hm0).mpr (by linarith)
  have f1 : (0 : ℚ) ≤ (M : ℚ) / (L1 : ℚ) := by positivity
  have f2 : (0 : ℚ) ≤ (M : ℚ) / (L2 : ℚ) := by positivity
  have f3 : (0 : ℚ) ≤ ((M : ℚ) - (T : ℚ)) / (M : ℚ) :=
    div_nonneg (by linarith) (le_of_lt hm0)
  constructor
  · linarith
  · linarith

lemma jaro_similarity_bounds (a b : Str) :
    0 ≤ PS.jaro_similarity a b ∧ PS.jaro_similarity a b ≤ 1 := by
  unfold PS.jaro_similarity
  dsimp only
  split
  · norm_num
  split
  · norm_num
  next hab hz =>
  split
  · norm_num
  next hm =>
  push_neg at hz
  obtain ⟨ha0, hb0⟩ := hz
  obtain ⟨h1, h2, h3, h4⟩ := phase1_spec b ((max a.length b.length : ℤ) / 2 - 1) a 0
    (List.replicate b.length false) (by simp)
  set res := phase1 b ((max a.length b.length : ℤ) / 2 - 1) a 0
    (List.replicate b.length false) with hres
  have hm1 : 1 ≤ res.2.2 := Nat.one_le_iff_ne_zero.mpr hm
  have hmlen1 : res.2.2 ≤ a.length := by
    calc res.2.2 = res.1.count true := h2.symm
    _ ≤ res.1.length := List.count_le_length true res.1
    _ = a.length := h1
  have hmlen2 : res.2.2 ≤ b.length := by
    have h4' : res.2.1.count true = res.2.2 := by
      rw [h4, List.count_replicate]
      simp
    calc res.2.2 = res.2.1.count true := h4'.symm
    _ ≤ res.2.1.length := List.count_le_length true res.2.1
    _ = b.length := h3
  have htm : phase2 b res.2.1 (a.zip res.1) 0 / 2 ≤ res.2.2 := by
    have hle := phase2_le b res.2.1 (a.zip res.1) 0
    have hzc : (a.zip res.1).countP (fun cb => cb.2) = res.1.count true := by
      have hmap : List.map Prod.snd (a.zip res.1) = res.1 :=
        List.map_snd_zip a res.1 (by omega)
      calc (a.zip res.1).countP (fun cb => cb.2)
          = (List.map Prod.snd (a.zip res.1)).countP (fun x => x) := by
            rw [List.countP_map]; rfl
        _ = res.1.countP (fun x => x) := by rw [hmap]
        _ = res.1.count true := by
            rw [List.count_eq_countP]
            congr 1
            funext x
            cases x <;> rfl
    have : phase2 b res.2.1 (a.zip res.1) 0 ≤ res.2.2 := by
      rw [← h2]; rw [hzc] at hle; exact hle
    omega
  exact jaroFormula_bounds hm1 hmlen1 hmlen2 htm

lemma winklerPrefixLen_le : ∀ (a b : Str) (l : ℕ), l < 4 → winklerPrefixLen 4 a b l ≤ 4 := by
  intro a
  induction a with
  | nil => intro b l hl; cases b <;> simp [winklerPrefixLen] <;> omega
  | cons x xs ih =>
    intro b l hl
    cases b with
    | nil => simp [winklerPrefixLen]; omega
    | cons y ys =>
      rw [winklerPrefixLen]
      by_cases hxy : x = y
      · rw [if_pos hxy]
        by_cases h4 : l + 1 = 4
        · rw [if_pos h4]; omega
        · rw [if_neg h4]; exact ih ys (l + 1) (by omega)
      · rw [if_neg hxy]; omega

lemma jaro_winkler_bounds (a b : Str) :
    0 ≤ PS.jaro_winkler a b ∧ PS.jaro_winkler a b ≤ 1 := by
  unfold PS.jaro_winkler
  simp only
  obtain ⟨hj0, hj1⟩ := jaro_similarity_bounds (PS.normalize_text a) (PS.normalize_text b)
  set j := PS.jaro_similarity (PS.normalize_text a) (PS.normalize_text b) with hj
  set l := winklerPrefixLen 4 (PS.normalize_text a) (PS.normalize_text b) 0 with hl
  have hl4 : l ≤ 4 := winklerPrefixLen_le _ _ 0 (by omega)
  have hlq : (l : ℚ) ≤ 4 := by exact_mod_cast hl4
  have hlq0 : (0 : ℚ) ≤ (l : ℚ) := by positivity
  constructor
  · nlinarith
  · nlinarith

lemma jaccard_bounds (a b : List Str) :
    0 ≤ PS.jaccard a b ∧ PS.jaccard a b ≤ 1 := by
  unfold PS.jaccard
  by_cases h1 : a.toFinset = ∅ ∧ b.toFinset = ∅
  · simp [h1]
  rw [if_neg h1]
  by_cases h2 : a.toFinset = ∅ ∨ b.toFinset = ∅
  · simp only [if_pos h2]; norm_num
  rw [if_neg h2]
  push_neg at h2
  have hcard : 0 < (a.toFinset ∪ b.toFinset).card := by
    rcases Finset.nonempty_of_ne_empty h2.1 with ⟨x, hx⟩
    exact Finset.card_pos.mpr ⟨x, Finset.mem_union_left _ hx⟩
  have hle : (a.toFinset ∩ b.toFinset).card ≤ (a.toFinset ∪ b.toFinset).card :=
    Finset.card_le_card (Finset.inter_subset_union)
  have hQ : (0 : ℚ) < ((a.toFinset ∪ b.toFinset).card : ℚ) := by exact_mod_cast hcard
  constructor
  · positivity
  · exact (div_le_one hQ).mpr (by exact_mod_cast hle)

/-- Claim C5: each similarity metric takes values in `[0, 1]`: `jaro_similarity`,
`jaro_winkler` (the prefix boost never pushes the result above 1) and
`jaccard`. -/
theorem similarity_metrics_in_unit_interval (a b : Str) (ta tb : List Str) :
    (0 ≤ PS.jaro_similarity a b ∧ PS.jaro_similarity a b ≤ 1) ∧
    (0 ≤ PS.jaro_winkler a b ∧ PS.jaro_winkler a b ≤ 1) ∧
    (0 ≤ PS.jaccard ta tb ∧ PS.jaccard ta tb ≤ 1) :=
  ⟨jaro_similarity_bounds a b, jaro_winkler_bounds a b, jaccard_bounds ta tb⟩
/-! Sorting and best-candidate lemmas (claim C3). -/

lemma insertDesc_length (c : Candidate) (l : List Candidate) :
    (insertDesc c l).length = l.length + 1 := by
  induction l with
  | nil => rfl
  | cons d ds ih =>
    rw [insertDesc]
    split
    · simp
    · simp [ih]

lemma insertDesc_mem {c e : Candidate} {l : List Candidate}
    (h : e ∈ insertDesc c l) : e = c ∨ e ∈ l := by
  induction l with
  | nil => simp [insertDesc] at h; exact Or.inl h
  | cons d ds ih =>
    rw [insertDesc] at h
    split at h
    · rcases List.mem_cons.mp h with rfl | h'
      · exact Or.inl rfl
      · exact Or.inr h'
    · rcases List.mem_cons.mp h with rfl | h'
      · exact Or.inr (List.mem_cons_self _ _)
      · rcases ih h' with rfl | h'' 
        · exact Or.inl rfl
        · exact Or.inr (List.mem_cons_of_mem _ h'')

lemma insertDesc_sorted {c : Candidate} {l : List Candidate}
    (h : l.Pairwise (fun x y => y.score ≤ x.score)) :
    (insertDesc c l).Pairwise (fun x y => y.score ≤ x.score) := by
  induction l with
  | nil => simp [insertDesc]
  | cons d ds ih =>
    rw [insertDesc]
    rcases List.pairwise_cons.mp h with ⟨hd, hds⟩
    split
    next hgt =>
      refine List.pairwise_cons.mpr ⟨?_, h⟩
      intro e he
      rcases List.mem_cons.mp he with rfl | he'
      · exact le_of_lt hgt
      · exact le_trans (hd e he') (le_of_lt hgt)
    next hle =>
      refine List.pairwise_cons.mpr ⟨?_, ih hds⟩
      intro e he
      have hmem := insertDesc_mem he
      rcases hmem with rfl | he'
      · exact not_lt.mp hle
      · exact hd e he'


lemma filter_eq_nil_of_lt {q : ℚ} {l : List Candidate}
    (h : ∀ e ∈ l, e.score < q) :
    l.filter (fun x => x.score = q) = [] := by
  rw [List.filter_eq_nil_iff]
  intro e he
  simp only [decide_eq_true_eq]
  exact ne_of_lt (h e he)

lemma insertDesc_filter {c : Candidate} {l : List Candidate} (q : ℚ)
    (h : l.Pairwise (fun x y => y.score ≤ x.score)) :
    (insertDesc c l).filter (fun x => x.score = q) =
      l.filter (fun x => x.score = q) ++ (if c.score = q then [c] else []) := by
  induction l with
  | nil => by_cases hcq : c.score = q <;> simp [insertDesc, List.filter_cons, hcq]
  | cons d ds ih =>
    rcases List.pairwise_cons.mp h with ⟨hd, hds⟩
    rw [insertDesc]
    split
    next hgt =>
      by_cases hcq : c.score = q
      · have hnil : (d :: ds).filter (fun x => x.score = q) = [] := by
          apply filter_eq_nil_of_lt
          intro e he
          rcases List.mem_cons.mp he with rfl | he'
          · rw [← hcq]; exact hgt
          · exact lt_of_le_of_lt (hd e he') (hcq ▸ hgt)
        simp [List.filter_cons, hcq, hnil]
      · simp [List.filter_cons, hcq]
    next hle =>
      by_cases hdq : d.score = q
      · simp [List.filter_cons, hdq, ih hds]
      · simp [List.filter_cons, hdq, ih hds]

lemma sortDesc_foldl_spec :
    ∀ (l : List Candidate) (acc : List Candidate),
      acc.Pairwise (fun x y => y.score ≤ x.score) →
      (List.foldl (fun acc c => insertDesc c acc) acc l).Pairwise
          (fun x y => y.score ≤ x.score) ∧
      (List.foldl (fun acc c => insertDesc c acc) acc l).length = acc.length + l.length ∧
      ∀ q : ℚ, (List.foldl (fun acc c => insertDesc c acc) acc l).filter
            (fun x => x.score = q) =
          acc.filter (fun x => x.score = q) ++ l.filter (fun x => x.score = q) := by
  intro l
  induction l with
  | nil => intro acc h; simp [h]
  | cons c cs ih =>
    intro acc h
    rw [List.foldl_cons]
    obtain ⟨ih1, ih2, ih3⟩ := ih (insertDesc c acc) (insertDesc_sorted h)
    refine ⟨ih1, ?_, ?_⟩
    · rw [ih2, insertDesc_length]
      simp [Nat.add_assoc, Nat.add_comm 1 cs.length]
    · intro q
      rw [ih3 q, insertDesc_filter q h, List.filter_cons]
      by_cases hcq : c.score = q
      · simp [hcq]
      · simp [hcq]

lemma sortDesc_sorted (l : List Candidate) :
    (sortDesc l).Pairwise (fun x y => y.score ≤ x.score) :=
  (sortDesc_foldl_spec l [] (List.Pairwise.nil)).1

lemma sortDesc_length (l : List Candidate) : (sortDesc l).length = l.length := by
  have := (sortDesc_foldl_spec l [] (List.Pairwise.nil)).2.1
  simpa [sortDesc] using this

lemma sortDesc_filter (l : List Candidate) (q : ℚ) :
    (sortDesc l).filter (fun x => x.score = q) = l.filter (fun x => x.score = q) := by
  have := (sortDesc_foldl_spec l [] (List.Pairwise.nil)).2.2 q
  simpa [sortDesc] using this

lemma pyFold_spec :
    ∀ (cs : List Candidate) (cur : Candidate),
      ∃ l1 l2,
        cur :: cs =
          l1 ++ (cs.foldl (fun cur d => if d.score > cur.score then d else cur) cur) :: l2 ∧
        (∀ d ∈ l1, d.score <
          (cs.foldl (fun cur d => if d.score > cur.score then d else cur) cur).score) ∧
        (∀ d ∈ l2, d.score ≤
          (cs.foldl (fun cur d => if d.score > cur.score then d else cur) cur).score) := by
  intro cs
  induction cs with
  | nil =>
    intro cur
    exact ⟨[], [], by simp, by simp, by simp⟩
  | cons d ds ih =>
    intro cur
    rw [List.foldl_cons]
    by_cases hgt : d.score > cur.score
    · rw [if_pos hgt]
      obtain ⟨l1, l2, heq, hlt, hle⟩ := ih d
      set r := ds.foldl (fun cur d => if d.score > cur.score then d else cur) d with hr
      have hrd : d.score ≤ r.score := by
        rcases l1 with _ | ⟨x, xs⟩
        · have : d = r := by
            have := heq
            simp at this
            exact this.1
          rw [← this]
        · have hd_mem : d = x := by
            have := heq
            simp at this
            exact this.1
          have : d ∈ (x :: xs : List Candidate) := by rw [hd_mem]; exact List.mem_cons_self _ _
          exact le_of_lt (hlt d this)
      refine ⟨cur :: l1, l2, by simp [heq], ?_, hle⟩
      intro e he
      rcases List.mem_cons.mp he with rfl | he'
      · exact lt_of_lt_of_le hgt hrd
      · exact hlt e he'
    · rw [if_neg hgt]
      obtain ⟨l1, l2, heq, hlt, hle⟩ := ih cur
      set r := ds.foldl (fun cur d => if d.score > cur.score then d else cur) cur with hr
      rcases l1 with _ | ⟨x, xs⟩
      · have hcur : cur = r := by
          have := heq; simp at this; exact this.1
        have hds : ds = l2 := by
          have := heq; simp at this; exact this.2
        refine ⟨[], d :: ds, by simp [← hcur], by simp, ?_⟩
        intro e he
        rcases List.mem_cons.mp he with rfl | he'
        · rw [← hcur]; exact not_lt.mp hgt
        · exact hle e (hds ▸ he')
      · have hx : cur = x := by
          have := heq; simp at this; exact this.1
        have hds : ds = xs ++ r :: l2 := by
          have := heq; simp at this; exact this.2
        refine ⟨cur :: d :: xs, l2, by simp [hds], ?_, hle⟩
        intro e he
        have hcurlt : cur.score < r.score := by
          apply hlt
          rw [hx]; exact List.mem_cons_self _ _
        rcases List.mem_cons.mp he with rfl | he'
        · exact hcurlt
        · rcases List.mem_cons.mp he' with rfl | he''
          · exact lt_of_le_of_lt (not_lt.mp hgt) hcurlt
          · exact hlt e (List.mem_cons_of_mem _ he'')

lemma pyMaxCand_spec {l : List Candidate} {c : Candidate}
    (h : pyMaxCand l = some c) :
    ∃ l1 l2, l = l1 ++ c :: l2 ∧ (∀ d ∈ l1, d.score < c.score) ∧
      (∀ d ∈ l2, d.score ≤ c.score) := by
  rcases l with _ | ⟨a, as⟩
  · exact Option.noConfusion h
  · rw [pyMaxCand] at h
    obtain ⟨l1, l2, heq, hlt, hle⟩ := pyFold_spec as a
    exact ⟨l1, l2, by rw [heq, Option.some.inj h], Option.some.inj h ▸ hlt,
      Option.some.inj h ▸ hle⟩

lemma head_insertDesc (c : Candidate) (l : List Candidate) :
    (insertDesc c l).head? =
      some (match l.head? with
            | none => c
            | some d => if c.score > d.score then c else d) := by
  rcases l with _ | ⟨d, ds⟩
  · rfl
  · rw [insertDesc]
    split
    next hgt => simp [hgt]
    next hle => simp [hle]

lemma sortDesc_append_one (l : List Candidate) (c : Candidate) :
    sortDesc (l ++ [c]) = insertDesc c (sortDesc l) := by
  simp [sortDesc, List.foldl_append]

lemma head_sortDesc_eq_pyMax : ∀ l : List Candidate, (sortDesc l).head? = pyMaxCand l := by
  intro l
  induction l using List.reverseRecOn with
  | nil => rfl
  | append_singleton l c ih =>
    rw [sortDesc_append_one, head_insertDesc]
    rcases l with _ | ⟨a, as⟩
    · rfl
    · have hsplit : (a :: as) ++ [c] = a :: (as ++ [c]) := rfl
      rw [hsplit, pyMaxCand, List.foldl_append, List.foldl_cons, List.foldl_nil]
      rw [pyMaxCand] at ih
      rw [ih]

lemma candidatesOf_length (watchlist : List Entry) (p : Payload) :
    (PS.candidatesOf watchlist p).length = 2 * watchlist.length := by
  induction watchlist with
  | nil => rfl
  | cons wl ws ih =>
    simp only [PS.candidatesOf, List.flatMap_cons] at ih ⊢
    simp [ih]
    omega

/-- Claim C3: for every payload and watchlist of `N` entries, the returned
candidate list has exactly `2N` elements, is sorted non-increasingly by score
while ties keep generation order (the score-`q` slice of the sorted list is
the score-`q` slice of the generated list, for every `q`), the reported best
candidate is the first maximum-score element of the generated list, and the
head of the sorted list is exactly that element when the watchlist is
non-empty. -/
theorem candidate_list_invariants (watchlist : List Entry) (p : Payload) :
    (PS.screen_payment watchlist p).candidates.length = 2 * watchlist.length ∧
    (PS.screen_payment watchlist p).candidates.Pairwise (fun x y => y.score ≤ x.score) ∧
    (∀ q : ℚ, (PS.screen_payment watchlist p).candidates.filter (fun c => c.score = q) =
      (PS.candidatesOf watchlist p).filter (fun c => c.score = q)) ∧
    (∀ c, pyMaxCand (PS.candidatesOf watchlist p) = some c →
      ((PS.screen_payment watchlist p).best_role = some c.role ∧
        (PS.screen_payment watchlist p).best_wl = some c.wl ∧
        (PS.screen_payment watchlist p).best_score = c.score ∧
        (PS.screen_payment watchlist p).best_breakdown = some c.breakdown) ∧
      ∃ l1 l2, PS.candidatesOf watchlist p = l1 ++ c :: l2 ∧
        (∀ d ∈ l1, d.score < c.score) ∧ (∀ d ∈ l2, d.score ≤ c.score)) ∧
    (watchlist ≠ [] →
      (PS.screen_payment watchlist p).candidates.head? =
        pyMaxCand (PS.candidatesOf watchlist p)) := by
  have hc : (PS.screen_payment watchlist p).candidates =
      sortDesc (PS.candidatesOf watchlist p) := rfl
  refine ⟨?_, ?_, ?_, ?_, ?_⟩
  · rw [hc, sortDesc_length, candidatesOf_length]
  · rw [hc]; exact sortDesc_sorted _
  · intro q; rw [hc]; exact sortDesc_filter _ q
  · intro c hmax
    refine ⟨?_, pyMaxCand_spec hmax⟩
    constructor
    · show (pyMaxCand (PS.candidatesOf watchlist p)).map (·.role) = some c.role
      rw [hmax]; rfl
    constructor
    · show (pyMaxCand (PS.candidatesOf watchlist p)).map (·.wl) = some c.wl
      rw [hmax]; rfl
    constructor
    · show (match pyMaxCand (PS.candidatesOf watchlist p) with
        | some c => c.score | none => 0) = c.score
      rw [hmax]
    · show (pyMaxCand (PS.candidatesOf watchlist p)).map (·.breakdown) = some c.breakdown
      rw [hmax]; rfl
  · intro _
    rw [hc]
    exact head_sortDesc_eq_pyMax _

/-- A payload whose payer and beneficiary fields coincide. -/
def payloadSym : Payload :=
  { payer_name := "q".data, payer_address := "w".data, payer_country := "d".data,
    payer_dob := [], benef_name := "q".data, benef_address := "w".data,
    benef_country := "d".data, benef_dob := [] }

/-- Concrete instance of claim C3 on a one-entry watchlist. -/
theorem candidate_list_invariants_witness :
    ([tinyEntry] ≠ ([] : List Entry)) ∧
    (∃ c, pyMaxCand (PS.candidatesOf [tinyEntry] payloadSym) = some c ∧
      ∃ l1 l2, PS.candidatesOf [tinyEntry] payloadSym = l1 ++ c :: l2 ∧
        (∀ d ∈ l1, d.score < c.score) ∧ (∀ d ∈ l2, d.score ≤ c.score)) ∧
    (PS.screen_payment [tinyEntry] payloadSym).candidates.head? =
      pyMaxCand (PS.candidatesOf [tinyEntry] payloadSym) := by
  obtain ⟨c₀, hc₀⟩ : ∃ c, pyMaxCand (PS.candidatesOf [tinyEntry] payloadSym) = some c :=
    ⟨_, rfl⟩
  exact ⟨by decide,
    ⟨c₀, hc₀, ((candidate_list_invariants [tinyEntry] payloadSym).2.2.2.1 c₀ hc₀).2⟩,
    (candidate_list_invariants [tinyEntry] payloadSym).2.2.2.2 (by decide)⟩

/-! Equality of the three embedded implementations (claim C10). -/

lemma v3_canonical_eq : V3.canonical_country = PS.canonical_country := by
  funext s
  have hn : V3._norm = PS._norm := rfl
  have ha : V3.SANCTION_ALIASES = PS.SANCTION_ALIASES := rfl
  rcases hl : List.lookup (PS._norm s) PS.SANCTION_ALIASES with _ | v <;>
    simp [V3.canonical_country, PS.canonical_country, hn, ha, hl]

lemma v3_sanctioned_eq : V3.SANCTIONED_COUNTRIES = PS.SANCTIONED_COUNTRIES := by
  unfold V3.SANCTIONED_COUNTRIES PS.SANCTIONED_COUNTRIES
  rw [v3_canonical_eq]
  rfl

lemma v3_addr_eq : V3.address_has_sanctioned_country = PS.address_has_sanctioned_country := by
  funext a
  unfold V3.address_has_sanctioned_country PS.address_has_sanctioned_country
  rw [v3_sanctioned_eq]
  rfl

lemma v3_issanc_eq : V3.is_sanctioned_country = PS.is_sanctioned_country := by
  funext c
  unfold V3.is_sanctioned_country PS.is_sanctioned_country
  rw [v3_sanctioned_eq, v3_canonical_eq]

lemma v3_composite_eq : V3.composite_risk_score = PS.composite_risk_score := by
  funext n a c d wl
  unfold V3.composite_risk_score PS.composite_risk_score
  rw [v3_issanc_eq, v3_addr_eq]
  rfl

lemma v3_candidates_eq : V3.candidatesOf = PS.candidatesOf := by
  funext wl p
  unfold V3.candidatesOf PS.candidatesOf
  rw [v3_composite_eq]

lemma v3_reasons_eq : V3.sanctionReasonsOf = PS.sanctionReasonsOf := by
  funext wl p
  unfold V3.sanctionReasonsOf PS.sanctionReasonsOf
  rw [v3_composite_eq]
  rfl

lemma v3_flag_eq : V3.sanctionFlagOf = PS.sanctionFlagOf := by
  funext wl p
  unfold V3.sanctionFlagOf PS.sanctionFlagOf
  rw [v3_candidates_eq]

lemma v3_screen_eq : V3.screen_payment = PS.screen_payment := by
  funext wl p
  unfold V3.screen_payment PS.screen_payment
  rw [v3_candidates_eq, v3_flag_eq, v3_reasons_eq]
  simp only [show V3.THRESHOLD = PS.THRESHOLD from rfl]

lemma api_canonical_eq : Api.canonical_country = PS.canonical_country := by
  funext s
  have hn : Api._norm = PS._norm := rfl
  have ha : Api.SANCTION_ALIASES = PS.SANCTION_ALIASES := rfl
  rcases hl : List.lookup (PS._norm s) PS.SANCTION_ALIASES with _ | v <;>
    simp [Api.canonical_country, PS.canonical_country, hn, ha, hl]

lemma api_sanctioned_eq : Api.SANCTIONED_COUNTRIES = PS.SANCTIONED_COUNTRIES := by
  unfold Api.SANCTIONED_COUNTRIES PS.SANCTIONED_COUNTRIES
  rw [api_canonical_eq]
  rfl

lemma api_addr_eq : Api.address_has_sanctioned_country = PS.address_has_sanctioned_country := by
  funext a
  unfold Api.address_has_sanctioned_country PS.address_has_sanctioned_country
  rw [api_sanctioned_eq]
  rfl

lemma api_issanc_eq : Api.is_sanctioned_country = PS.is_sanctioned_country := by
  funext c
  unfold Api.is_sanctioned_country PS.is_sanctioned_country
  rw [api_sanctioned_eq, api_canonical_eq]

lemma api_composite_eq : Api.composite_risk_score = PS.composite_risk_score := by
  funext n a c d wl
  unfold Api.composite_risk_score PS.composite_risk_score
  rw [api_issanc_eq, api_addr_eq]
  rfl

lemma api_candidates_eq : Api.candidatesOf = PS.candidatesOf := by
  funext wl p
  unfold Api.candidatesOf PS.candidatesOf
  rw [api_composite_eq]

lemma api_reasons_eq : Api.sanctionReasonsOf = PS.sanctionReasonsOf := by
  funext wl p
  unfold Api.sanctionReasonsOf PS.sanctionReasonsOf
  rw [api_composite_eq]
  rfl

lemma api_flag_eq : Api.sanctionFlagOf = PS.sanctionFlagOf := by
  funext wl p
  unfold Api.sanctionFlagOf PS.sanctionFlagOf
  rw [api_candidates_eq]

/-- Claim C10: the three `screen_payment` implementations agree on every
payload and watchlist in every component of their results: the tuple of
`paymentscreening.py` and that of `paymentscreening_v3.py` are equal outright,
and the result dictionary of `payment_screening_api.py` carries the same nine
components; the three static watchlists are also identical. -/
theorem three_implementations_agree (watchlist : List Entry) (p : Payload) :
    V3.screen_payment watchlist p = PS.screen_payment watchlist p ∧
    ((Api.screen_payment watchlist p).decision = (PS.screen_payment watchlist p).decision ∧
     (Api.screen_payment watchlist p).reason = (PS.screen_payment watchlist p).reason ∧
     (Api.screen_payment watchlist p).best_role = (PS.screen_payment watchlist p).best_role ∧
     (Api.screen_payment watchlist p).best_wl = (PS.screen_payment watchlist p).best_wl ∧
     (Api.screen_payment watchlist p).best_score = (PS.screen_payment watchlist p).best_score ∧
     (Api.screen_payment watchlist p).breakdown = (PS.screen_payment watchlist p).best_breakdown ∧
     (Api.screen_payment watchlist p).sanction_flag = (PS.screen_payment watchlist p).sanction_flag ∧
     (Api.screen_payment watchlist p).sanction_reasons = (PS.screen_payment watchlist p).sanction_reasons ∧
     (Api.screen_payment watchlist p).candidates = (PS.screen_payment watchlist p).candidates) ∧
    (V3.WATCHLIST = PS.WATCHLIST ∧ Api.WATCHLIST = PS.WATCHLIST) := by
  have happ : ∀ wl q, Api.screen_payment wl q =
      { decision := (PS.screen_payment wl q).decision,
        reason := (PS.screen_payment wl q).reason,
        best_role := (PS.screen_payment wl q).best_role,
        best_wl := (PS.screen_payment wl q).best_wl,
        best_score := (PS.screen_payment wl q).best_score,
        breakdown := (PS.screen_payment wl q).best_breakdown,
        sanction_flag := (PS.screen_payment wl q).sanction_flag,
        sanction_reasons := (PS.screen_payment wl q).sanction_reasons,
        candidates := (PS.screen_payment wl q).candidates } := by
    intro wl q
    unfold Api.screen_payment PS.screen_payment
    rw [api_candidates_eq, api_flag_eq, api_reasons_eq]
    simp only [show Api.THRESHOLD = PS.THRESHOLD from rfl]
  refine ⟨by rw [v3_screen_eq], ?_, rfl, rfl⟩
  rw [happ watchlist p]
  exact ⟨rfl, rfl, rfl, rfl, rfl, rfl, rfl, rfl, rfl⟩

/-! ### Claim C7: idempotence of `normalize_text`

The proof shows each pass-2 stage is the identity on `N := normalize_text s`:
lower-casing and punctuation collapse fix every character of `N`; the
whole-word abbreviation table finds no key among the word runs of `N`; the
`p.o. box` scan is idempotent and commutes with whitespace collapse and
stripping; and collapsing/stripping an already collapsed and stripped string
is a no-op. -/
/-! Helper lemmas about the scans (towards claim C7). -/

lemma matchPoBox_ne_p {c : Char} {cs : Str} (h : c ≠ 'p') : matchPoBox (c :: cs) = none := by
  rw [matchPoBox.eq_def]
  split
  next heq => injection heq with h1 _; exact absurd h1 h
  next => rfl

lemma subPoBoxA_true_cons (c : Char) (cs : Str) :
    subPoBoxA true (c :: cs) = c :: subPoBoxA (wordChar c) cs := by
  rw [subPoBoxA]; rfl

lemma subPoBoxA_false_cons_none {c : Char} {cs : Str} (h : matchPoBox (c :: cs) = none) :
    subPoBoxA false (c :: cs) = c :: subPoBoxA (wordChar c) cs := by
  rw [subPoBoxA]
  simp [h]

lemma subPoBoxA_false_cons_some {c : Char} {cs : Str} {n : ℕ}
    (h : matchPoBox (c :: cs) = some n) :
    subPoBoxA false (c :: cs) = "po box".data ++ subPoBoxA true (cs.drop (n - 1)) := by
  rw [subPoBoxA]
  simp [h]



lemma matchPoBox_inv {l : Str} {n : ℕ} (h : matchPoBox l = some n) :
    ∃ cs, l = 'p' :: cs ∧
    ∃ l4, (wsChunk (optDot cs).2).2 = 'o' :: l4 ∧
      "box".data.isPrefixOf (wsChunk (optDot l4).2).2 = true ∧
      boundaryAfter ((wsChunk (optDot l4).2).2.drop 3) = true ∧
      n = 1 + (optDot cs).1 + (wsChunk (optDot cs).2).1 + 1 + (optDot l4).1 +
        (wsChunk (optDot l4).2).1 + 3 := by
  rw [matchPoBox.eq_def] at h
  split at h
  next l1 =>
    dsimp only at h
    split at h
    next l4 heq2 =>
      split at h
      next hcond =>
        injection h with hn
        rw [Bool.and_eq_true] at hcond
        exact ⟨l1, rfl, l4, heq2, hcond.1, hcond.2, by omega⟩
      next => exact Option.noConfusion h
    next => exact Option.noConfusion h
  next => exact Option.noConfusion h

lemma optDot_spec (l : Str) : (optDot l).2 = l.drop (optDot l).1 ∧ (optDot l).1 ≤ l.length := by
  match l with
  | [] => simp [optDot]
  | c :: cs =>
    by_cases hc : c = '.'
    · subst hc; simp [optDot]
    · have : optDot (c :: cs) = (0, c :: cs) := by
        rw [optDot.eq_def]
        split
        next heq => injection heq with h1 _; exact absurd h1 hc
        next => rfl
      simp [this]

lemma dropWhile_eq_drop (p : Char → Bool) (l : Str) :
    l.dropWhile p = l.drop (l.takeWhile p).length := by
  induction l with
  | nil => rfl
  | cons c cs ih =>
    by_cases hc : p c
    · simp [List.takeWhile_cons, List.dropWhile_cons, hc, ih]
    · simp [List.takeWhile_cons, List.dropWhile_cons, hc]

lemma wsChunk_spec (l : Str) : (wsChunk l).2 = l.drop (wsChunk l).1 ∧ (wsChunk l).1 ≤ l.length := by
  unfold wsChunk
  exact ⟨dropWhile_eq_drop pyWs l,
    by simpa using List.IsPrefix.length_le (List.takeWhile_prefix pyWs)⟩


lemma drop_of_drop_cons {l rest : Str} {c : Char} {k : ℕ} (h : l.drop k = c :: rest) :
    l.drop (k + 1) = rest := by
  have := List.drop_drop 1 k l
  rw [← this, h]
  rfl

lemma matchPoBox_drop {l : Str} {n : ℕ} (h : matchPoBox l = some n) :
    n ≤ l.length ∧ boundaryAfter (l.drop n) = true := by
  obtain ⟨cs, rfl, l4, heq2, hpre, hbnd, hn⟩ := matchPoBox_inv h
  obtain ⟨ho1, hl1⟩ := optDot_spec cs
  obtain ⟨hw1, hwl1⟩ := wsChunk_spec (optDot cs).2
  obtain ⟨ho2, hl2⟩ := optDot_spec l4
  obtain ⟨hw2, hwl2⟩ := wsChunk_spec (optDot l4).2
  set a1 := (optDot cs).1 with ha1
  set w1 := (wsChunk (optDot cs).2).1 with hww1
  set a2 := (optDot l4).1 with ha2
  set w2 := (wsChunk (optDot l4).2).1 with hww2
  have hcs1 : (wsChunk (optDot cs).2).2 = cs.drop (w1 + a1) := by
    rw [hw1, ho1, List.drop_drop]
    congr 1
    omega
  have hl4 : l4 = cs.drop (w1 + a1 + 1) := by
    have := drop_of_drop_cons (hcs1 ▸ heq2)
    exact this.symm
  have hfin : (wsChunk (optDot l4).2).2 = cs.drop (w2 + a2 + (w1 + a1 + 1)) := by
    rw [hw2, ho2, hl4, List.drop_drop, List.drop_drop]
    congr 1
    omega
  have hpre' : ("box".data : Str) <+: (wsChunk (optDot l4).2).2 := by
    rwa [← List.isPrefixOf_iff_prefix]
  obtain ⟨tl, htl⟩ := hpre'
  have hlen3 : 3 ≤ (wsChunk (optDot l4).2).2.length := by
    rw [← htl]
    simp
  have hlencs : w2 + a2 + (w1 + a1 + 1) + 3 ≤ cs.length := by
    have := hfin ▸ hlen3
    have hdl : (cs.drop (w2 + a2 + (w1 + a1 + 1))).length = cs.length - (w2 + a2 + (w1 + a1 + 1)) :=
      List.length_drop _ _
    omega
  constructor
  · simp only [List.length_cons]
    omega
  · have hdropn : ('p' :: cs : Str).drop n = cs.drop (n - 1) := by
      have : n = (n - 1) + 1 := by omega
      rw [this]
      rfl
    have : cs.drop (n - 1) = (wsChunk (optDot l4).2).2.drop 3 := by
      rw [hfin, List.drop_drop]
      congr 1
      omega
    rw [hdropn, this]
    exact hbnd


lemma matchPoBox_pos {l : Str} {n : ℕ} (h : matchPoBox l = some n) : 1 ≤ n := by
  obtain ⟨cs, rfl, l4, -, -, -, hn⟩ := matchPoBox_inv h
  omega

lemma matchPoBox_emit {X : Str} (hb : boundaryAfter X = true) :
    matchPoBox ("po box".data ++ X) = some 6 := by
  show matchPoBox ('p' :: 'o' :: ' ' :: 'b' :: 'o' :: 'x' :: X) = some 6
  rw [matchPoBox.eq_def]
  simp [optDot, wsChunk, List.takeWhile, List.dropWhile, pyWs, List.isPrefixOf, hb]


lemma subPoBoxA_nil (b : Bool) : subPoBoxA b [] = [] := by rw [subPoBoxA]

lemma scan_cons_ne_p {c : Char} (hc : c ≠ 'p') (b : Bool) (u : Str) :
    subPoBoxA b (c :: u) = c :: subPoBoxA (wordChar c) u := by
  cases b
  · exact subPoBoxA_false_cons_none (matchPoBox_ne_p hc)
  · exact subPoBoxA_true_cons c u

lemma scan_head (b : Bool) (v : Str) : (subPoBoxA b v).head? = v.head? := by
  match v with
  | [] => rw [subPoBoxA_nil]
  | c :: cs =>
    cases b
    · rcases hm : matchPoBox (c :: cs) with _ | n
      · rw [subPoBoxA_false_cons_none hm]; rfl
      · rw [subPoBoxA_false_cons_some hm]
        obtain ⟨_, heq, -⟩ := matchPoBox_inv hm
        injection heq with h1 _
        rw [h1]
        rfl
    · rw [subPoBoxA_true_cons]; rfl

lemma scan_boundary {v : Str} (h : boundaryAfter v = true) (b : Bool) :
    boundaryAfter (subPoBoxA b v) = true := by
  match v with
  | [] => rw [subPoBoxA_nil]; exact h
  | c :: cs =>
    have hh := scan_head b (c :: cs)
    rcases hsc : subPoBoxA b (c :: cs) with _ | ⟨d, ds⟩
    · rfl
    · rw [hsc] at hh
      injection hh with hd
      rw [boundaryAfter]
      rw [hd]
      exact h


lemma pyWs_ne_p {c : Char} (h : pyWs c = true) : c ≠ 'p' := by
  intro hc
  subst hc
  simp [pyWs] at h

lemma pyWs_not_word {c : Char} (h : pyWs c = true) : wordChar c = false := by
  have h2 : ((((c = ' ' ∨ c = '\t') ∨ c = '\n') ∨ c = '\x0d') ∨ c = '\x0b') ∨ c = '\x0c' := by
    simpa [pyWs] using h
  rcases h2 with ((((rfl | rfl) | rfl) | rfl) | rfl) | rfl <;> decide

lemma optDot_not_dot {c : Char} (hc : c ≠ '.') (cs : Str) : optDot (c :: cs) = (0, c :: cs) := by
  rw [optDot.eq_def]
  split
  next heq => injection heq with h1 _; exact absurd h1 hc
  next => rfl

lemma wsChunk_cons_ws {c : Char} (hc : pyWs c = true) (u : Str) :
    wsChunk (c :: u) = ((wsChunk u).1 + 1, (wsChunk u).2) := by
  unfold wsChunk
  simp [List.takeWhile_cons, List.dropWhile_cons, hc, Nat.add_comm]

lemma wsChunk_cons_not_ws {c : Char} (hc : pyWs c = false) (u : Str) :
    wsChunk (c :: u) = (0, c :: u) := by
  unfold wsChunk
  simp [List.takeWhile_cons, List.dropWhile_cons, hc]

lemma optDot_scan (b : Bool) (v : Str) :
    ∃ b', optDot (subPoBoxA b v) = ((optDot v).1, subPoBoxA b' (optDot v).2) := by
  match v with
  | [] =>
    refine ⟨b, ?_⟩
    rw [subPoBoxA_nil]
    have : optDot ([] : Str) = (0, ([] : Str)) := rfl
    rw [this, subPoBoxA_nil]
  | c :: u =>
    by_cases hc : c = '.'
    · subst hc
      have hdot : subPoBoxA b ('.' :: u) = '.' :: subPoBoxA false u := by
        have := scan_cons_ne_p (show ('.' : Char) ≠ 'p' by decide) b u
        rwa [show wordChar '.' = false by decide] at this
      refine ⟨false, ?_⟩
      rw [hdot]
      have h1 : optDot ('.' :: subPoBoxA false u) = (1, subPoBoxA false u) := rfl
      have h2 : optDot ('.' :: u) = (1, u) := rfl
      rw [h1, h2]
    · refine ⟨b, ?_⟩
      rw [optDot_not_dot hc]
      have hh := scan_head b (c :: u)
      rcases hsc : subPoBoxA b (c :: u) with _ | ⟨d, ds⟩
    
      · rw [hsc] at hh; exact Option.noConfusion hh
      · rw [hsc] at hh
        injection hh with hd
        rw [optDot_not_dot (hd ▸ hc)]

lemma wsChunk_scan (b : Bool) (v : Str) :
    ∃ b', wsChunk (subPoBoxA b v) = ((wsChunk v).1, subPoBoxA b' (wsChunk v).2) := by
  induction v generalizing b with
  | nil =>
    refine ⟨b, ?_⟩
    rw [subPoBoxA_nil]
    have : wsChunk [] = (0, ([] : Str)) := rfl
    rw [this, subPoBoxA_nil]
  | cons c u ih =>
    by_cases hc : pyWs c
    · have hstep : subPoBoxA b (c :: u) = c :: subPoBoxA false u := by
        have := scan_cons_ne_p (pyWs_ne_p hc) b u
        rwa [pyWs_not_word hc] at this
      obtain ⟨b', ih'⟩ := ih false
      refine ⟨b', ?_⟩
      rw [hstep, wsChunk_cons_ws hc, wsChunk_cons_ws hc, ih']
    · refine ⟨b, ?_⟩
      rw [wsChunk_cons_not_ws (by simpa using hc)]
      have hh := scan_head b (c :: u)
      rcases hsc : subPoBoxA b (c :: u) with _ | ⟨d, ds⟩
      · rw [hsc] at hh; exact Option.noConfusion hh
      · rw [hsc] at hh
        injection hh with hd
        rw [wsChunk_cons_not_ws (by subst hd; simpa using hc)]


lemma isPrefixOf_box_ne {z : Char} (hz : z ≠ 'b') (zs : Str) :
    "box".data.isPrefixOf (z :: zs) = false := by
  show (('b' :: 'o' :: 'x' :: [] : Str)).isPrefixOf (z :: zs) = false
  simp [List.isPrefixOf, hz, Ne.symm hz]

lemma scan_cons_head {b : Bool} {v : Str} {c : Char} {cs : Str} (hv : v = c :: cs) :
    ∃ ds, subPoBoxA b v = c :: ds := by
  have hh := scan_head b v
  rcases hsc : subPoBoxA b v with _ | ⟨c', ds⟩
  · rw [hsc, hv] at hh; exact Option.noConfusion hh
  · rw [hsc, hv] at hh
    injection hh with hc
    exact ⟨ds, by rw [hc]⟩

lemma boxCheck_scan (b : Bool) (B : Str) :
    ("box".data.isPrefixOf (subPoBoxA b B) && boundaryAfter ((subPoBoxA b B).drop 3)) =
    ("box".data.isPrefixOf B && boundaryAfter (B.drop 3)) := by
  rcases B with _ | ⟨z, B2⟩
  · rw [subPoBoxA_nil]
  · by_cases hz : z = 'b'
    · subst hz
      have h1 : subPoBoxA b ('b' :: B2) = 'b' :: subPoBoxA (wordChar 'b') B2 :=
        scan_cons_ne_p (by decide) b B2
      rw [show wordChar 'b' = true by decide] at h1
      rw [h1]
      rcases B2 with _ | ⟨w, B3⟩
      · rw [subPoBoxA_nil]
      · by_cases hw : w = 'o'
        · subst hw
          have h2 : subPoBoxA true ('o' :: B3) = 'o' :: subPoBoxA (wordChar 'o') B3 :=
            subPoBoxA_true_cons 'o' B3
          rw [show wordChar 'o' = true by decide] at h2
          rw [h2]
          rcases B3 with _ | ⟨y, B4⟩
          · rw [subPoBoxA_nil]
          · by_cases hy : y = 'x'
            · subst hy
              have h3 : subPoBoxA true ('x' :: B4) = 'x' :: subPoBoxA (wordChar 'x') B4 :=
                subPoBoxA_true_cons 'x' B4
              rw [show wordChar 'x' = true by decide] at h3
              rw [h3]
              have hpre : ∀ T : Str, "box".data.isPrefixOf ('b' :: 'o' :: 'x' :: T) = true := by
                intro T
                show (('b' :: 'o' :: 'x' :: [] : Str)).isPrefixOf _ = true
                simp [List.isPrefixOf]
              rw [hpre, hpre]
              have hdrop : ∀ T : Str, ('b' :: 'o' :: 'x' :: T : Str).drop 3 = T := fun T => rfl
              rw [hdrop, hdrop]
              rcases B4 with _ | ⟨t, B5⟩
              · rw [subPoBoxA_nil]
              · obtain ⟨ds, hsc⟩ := @scan_cons_head true (t :: B5) t B5 rfl
                rw [hsc]
                simp [boundaryAfter]
            · obtain ⟨ds, hsc⟩ := @scan_cons_head true (y :: B4) y B4 rfl
              rw [hsc]
              have hne : ∀ T : Str, "box".data.isPrefixOf ('b' :: 'o' :: y :: T) = false := by
                intro T
                show (('b' :: 'o' :: 'x' :: [] : Str)).isPrefixOf _ = false
                simp [List.isPrefixOf, hy, Ne.symm hy]
              rw [hne, hne]
              simp
        · obtain ⟨ds, hsc⟩ := @scan_cons_head true (w :: B3) w B3 rfl
          rw [hsc]
          have hne : ∀ T : Str, "box".data.isPrefixOf ('b' :: w :: T) = false := by
            intro T
            show (('b' :: 'o' :: 'x' :: [] : Str)).isPrefixOf _ = false
            simp [List.isPrefixOf, hw, Ne.symm hw]
          rw [hne, hne]
          simp
    · obtain ⟨ds, hsc⟩ := @scan_cons_head b (z :: B2) z B2 rfl
      rw [hsc]
      rw [isPrefixOf_box_ne hz, isPrefixOf_box_ne hz]
      simp


lemma matchPoBox_none_iff (cs : Str) :
    matchPoBox ('p' :: cs) = none ↔
      ∀ l4, (wsChunk (optDot cs).2).2 = 'o' :: l4 →
        ("box".data.isPrefixOf (wsChunk (optDot l4).2).2 &&
          boundaryAfter ((wsChunk (optDot l4).2).2.drop 3)) = false := by
  constructor
  · intro h l4 heq
    by_contra hcond
    rw [Bool.not_eq_false] at hcond
    rw [matchPoBox] at h
    rw [heq] at h
    split at h
    next l4' heq2 =>
      injection heq2 with h1 h2
      subst h2
      rw [if_pos hcond] at h
      exact Option.noConfusion h
    next hne => exact hne l4 rfl
  · intro hall
    rw [matchPoBox]
    rcases heq : (wsChunk (optDot cs).2).2 with _ | ⟨y, l4⟩
    · rfl
    · by_cases hy : y = 'o'
      · subst hy
        split
        next l4' heq2 =>
          injection heq2 with h1 h2
          subst h2
          rw [if_neg (by rw [hall l4 heq]; exact Bool.false_ne_true)]
        next hne => rfl
      · split
        next l4' heq2 =>
          injection heq2 with h1 _
          exact absurd h1 hy
        next => rfl

lemma matchPoBox_persist {v : Str} (h : matchPoBox ('p' :: v) = none) (b : Bool) :
    matchPoBox ('p' :: subPoBoxA b v) = none := by
  obtain ⟨b1, hd1⟩ := optDot_scan b v
  obtain ⟨b2, hw1⟩ := wsChunk_scan b1 (optDot v).2
  rw [matchPoBox_none_iff] at h ⊢
  intro l4' heq'
  rw [hd1] at heq'
  dsimp only at heq'
  rw [hw1] at heq'
  dsimp only at heq'
  rcases hM : (wsChunk (optDot v).2).2 with _ | ⟨y, v2⟩
  · rw [hM, subPoBoxA_nil] at heq'
    exact List.noConfusion heq'
  · rw [hM] at heq'
    have hy : y = 'o' := by
      have hh := scan_head b2 (y :: v2)
      rw [heq'] at hh
      injection hh with h1
      exact h1.symm
    subst hy
    have hsc : subPoBoxA b2 ('o' :: v2) = 'o' :: subPoBoxA (wordChar 'o') v2 :=
      scan_cons_ne_p (by decide) b2 v2
    rw [show wordChar 'o' = true by decide] at hsc
    rw [hsc] at heq'
    have hl4' : l4' = subPoBoxA true v2 := (List.cons.inj heq').2.symm
    subst hl4'
    obtain ⟨b3, hd2⟩ := optDot_scan true v2
    obtain ⟨b4, hw2⟩ := wsChunk_scan b3 (optDot v2).2
    rw [hd2]
    dsimp only
    rw [hw2]
    dsimp only
    rw [boxCheck_scan]
    exact h v2 hM


/-- The `p.o. box` substitution scan is idempotent. -/
lemma subPoBoxA_idem (b : Bool) (v : Str) :
    subPoBoxA b (subPoBoxA b v) = subPoBoxA b v := by
  induction b, v using subPoBoxA.induct
  case case1 b => rw [subPoBoxA_nil, subPoBoxA_nil]
  case case2 c cs ih =>
    rw [subPoBoxA_true_cons, subPoBoxA_true_cons, ih]
  case case3 b c cs hb n hm ih =>
    rw [Bool.not_eq_true] at hb
    subst hb
    rw [subPoBoxA_false_cons_some hm]
    have hc : c = 'p' := by
      obtain ⟨cs', heq, -⟩ := matchPoBox_inv hm
      exact (List.cons.inj heq).1
    subst hc
    have hbR : boundaryAfter (cs.drop (n - 1)) = true := by
      have hd := (matchPoBox_drop hm).2
      have h1 : 1 ≤ n := matchPoBox_pos hm
      have : ('p' :: cs : Str).drop n = cs.drop (n - 1) := by
        have hn : n = (n - 1) + 1 := by omega
        rw [hn]
        rfl
      rwa [this] at hd
    have hbY : boundaryAfter (subPoBoxA true (cs.drop (n - 1))) = true :=
      scan_boundary hbR true
    have hm2 : matchPoBox ("po box".data ++ subPoBoxA true (cs.drop (n - 1))) = some 6 :=
      matchPoBox_emit hbY
    have hshape : ("po box".data ++ subPoBoxA true (cs.drop (n - 1)) : Str) =
        'p' :: ('o' :: ' ' :: 'b' :: 'o' :: 'x' :: subPoBoxA true (cs.drop (n - 1))) := rfl
    rw [hshape] at hm2 ⊢
    rw [subPoBoxA_false_cons_some hm2]
    have hdrop : (('o' :: ' ' :: 'b' :: 'o' :: 'x' :: subPoBoxA true (cs.drop (n - 1)) : Str)).drop
        (6 - 1) = subPoBoxA true (cs.drop (n - 1)) := rfl
    rw [hdrop, ih]
    rfl
  case case4 b c cs hb hm ih =>
    rw [Bool.not_eq_true] at hb
    subst hb
    rw [subPoBoxA_false_cons_none hm]
    by_cases hc : c = 'p'
    · subst hc
      rw [subPoBoxA_false_cons_none (matchPoBox_persist hm (wordChar 'p')), ih]
    · rw [subPoBoxA_false_cons_none (matchPoBox_ne_p hc), ih]


/-! Interaction of the whitespace-collapse pass `subRuns pyWs [' ']` with the
scans (towards claim C7). -/

lemma subRunsA_nil (p : Char → Bool) (r : Str) (b : Bool) : subRunsA p r b [] = [] := rfl

lemma cwF_cons_ws {c : Char} (hc : pyWs c = true) (u : Str) :
    subRunsA pyWs [' '] false (c :: u) = ' ' :: subRunsA pyWs [' '] true u := by
  simp [subRunsA, hc]

lemma cwF_cons_nws {c : Char} (hc : pyWs c = false) (u : Str) :
    subRunsA pyWs [' '] false (c :: u) = c :: subRunsA pyWs [' '] false u := by
  simp [subRunsA, hc]

lemma cwT_cons_ws {c : Char} (hc : pyWs c = true) (u : Str) :
    subRunsA pyWs [' '] true (c :: u) = subRunsA pyWs [' '] true u := by
  simp [subRunsA, hc]

lemma cwT_cons_nws {c : Char} (hc : pyWs c = false) (u : Str) :
    subRunsA pyWs [' '] true (c :: u) = c :: subRunsA pyWs [' '] false u := by
  simp [subRunsA, hc]

lemma cwT_eq (u : Str) :
    subRunsA pyWs [' '] true u = subRunsA pyWs [' '] false (u.dropWhile pyWs) := by
  induction u with
  | nil => rfl
  | cons c cs ih =>
    by_cases hc : pyWs c
    · rw [cwT_cons_ws hc, List.dropWhile_cons_of_pos hc, ih]
    · rw [cwT_cons_nws (by simpa using hc), List.dropWhile_cons_of_neg (by simpa using hc),
        cwF_cons_nws (by simpa using hc)]

lemma dropWhile_head_not {v : Str} {c : Char} (h : (v.dropWhile pyWs).head? = some c) :
    pyWs c = false := by
  induction v with
  | nil => exact Option.noConfusion h
  | cons d ds ih =>
    by_cases hd : pyWs d
    · rw [List.dropWhile_cons_of_pos hd] at h
      exact ih h
    · rw [List.dropWhile_cons_of_neg hd] at h
      injection h with h1
      subst h1
      simpa using hd

lemma cwF_head (u : Str) :
    (subRunsA pyWs [' '] false u).head? =
      u.head?.map (fun c => if pyWs c then ' ' else c) := by
  cases u with
  | nil => rfl
  | cons c cs =>
    by_cases hc : pyWs c
    · rw [cwF_cons_ws hc]
      simp [hc]
    · rw [cwF_cons_nws (by simpa using hc)]
      simp [hc]

lemma wsChunk_head_nws {v : Str} (h : ∀ c, v.head? = some c → pyWs c = false) :
    wsChunk v = (0, v) := by
  cases v with
  | nil => rfl
  | cons c cs => exact wsChunk_cons_not_ws (h c rfl) cs

lemma optDot_cwF (u : Str) :
    optDot (subRunsA pyWs [' '] false u) =
      ((optDot u).1, subRunsA pyWs [' '] false (optDot u).2) := by
  cases u with
  | nil => rfl
  | cons c cs =>
    by_cases hdot : c = '.'
    · subst hdot
      rw [cwF_cons_nws (by decide)]
      rfl
    · rw [optDot_not_dot hdot]
      by_cases hc : pyWs c
      · rw [cwF_cons_ws hc, optDot_not_dot (by decide)]
      · rw [cwF_cons_nws (by simpa using hc), optDot_not_dot hdot]

lemma cwF_dropped_head {u : Str} {c : Char}
    (h : (subRunsA pyWs [' '] false (u.dropWhile pyWs)).head? = some c) :
    pyWs c = false := by
  rw [cwF_head] at h
  rcases hh : (u.dropWhile pyWs).head? with _ | d
  · rw [hh] at h
    exact Option.noConfusion h
  · rw [hh] at h
    have hd := dropWhile_head_not hh
    simp [hd] at h
    subst h
    exact hd

lemma wsChunk_cwF (u : Str) :
    wsChunk (subRunsA pyWs [' '] false u) =
      (min (wsChunk u).1 1, subRunsA pyWs [' '] false (wsChunk u).2) := by
  cases u with
  | nil => rfl
  | cons c cs =>
    by_cases hc : pyWs c
    · rw [cwF_cons_ws hc, wsChunk_cons_ws hc, cwT_eq]
      rw [wsChunk_cons_ws (by decide : pyWs ' ' = true)]
      rw [wsChunk_head_nws (fun d hd => cwF_dropped_head hd)]
      have : wsChunk cs = ((wsChunk cs).1, cs.dropWhile pyWs) := by
        unfold wsChunk
        rfl
      rw [this]
      simp
    · rw [cwF_cons_nws (by simpa using hc), wsChunk_cons_not_ws (by simpa using hc),
        wsChunk_cons_not_ws (by simpa using hc)]
      simp [cwF_cons_nws (by simpa using hc : pyWs c = false)]

lemma boundaryAfter_cwF (u : Str) :
    boundaryAfter (subRunsA pyWs [' '] false u) = boundaryAfter u := by
  cases u with
  | nil => rfl
  | cons c cs =>
    by_cases hc : pyWs c
    · rw [cwF_cons_ws hc]
      show (!wordChar ' ') = !wordChar c
      rw [pyWs_not_word hc]
      decide
    · rw [cwF_cons_nws (by simpa using hc)]
      rfl

lemma boxCheck_cwF (B : Str) :
    ("box".data.isPrefixOf (subRunsA pyWs [' '] false B) &&
      boundaryAfter ((subRunsA pyWs [' '] false B).drop 3)) =
    ("box".data.isPrefixOf B && boundaryAfter (B.drop 3)) := by
  rcases B with _ | ⟨z, B2⟩
  · rfl
  · by_cases hzws : pyWs z
    · rw [cwF_cons_ws hzws]
      rw [isPrefixOf_box_ne (by decide) _, isPrefixOf_box_ne (fun hz => by subst hz; simp [pyWs] at hzws) _]
      simp
    · rw [cwF_cons_nws (by simpa using hzws)]
      by_cases hz : z = 'b'
      · subst hz
        rcases B2 with _ | ⟨w, B3⟩
        · rfl
        · by_cases hwws : pyWs w
          · rw [cwF_cons_ws hwws]
            have h1 : ∀ T : Str, "box".data.isPrefixOf ('b' :: ' ' :: T) = false := by
              intro T
              show (('b' :: 'o' :: 'x' :: [] : Str)).isPrefixOf _ = false
              simp [List.isPrefixOf]
            have h2 : ∀ T : Str, "box".data.isPrefixOf ('b' :: w :: T) = false := by
              intro T
              show (('b' :: 'o' :: 'x' :: [] : Str)).isPrefixOf _ = false
              have : w ≠ 'o' := fun hw => by subst hw; simp [pyWs] at hwws
              simp [List.isPrefixOf, Ne.symm this]
            rw [h1, h2]
            simp
          · rw [cwF_cons_nws (by simpa using hwws)]
            by_cases hw : w = 'o'
            · subst hw
              rcases B3 with _ | ⟨y, B4⟩
              · rfl
              · by_cases hyws : pyWs y
                · rw [cwF_cons_ws hyws]
                  have h1 : ∀ T : Str, "box".data.isPrefixOf ('b' :: 'o' :: ' ' :: T) = false := by
                    intro T
                    show (('b' :: 'o' :: 'x' :: [] : Str)).isPrefixOf _ = false
                    simp [List.isPrefixOf]
                  have h2 : ∀ T : Str, "box".data.isPrefixOf ('b' :: 'o' :: y :: T) = false := by
                    intro T
                    show (('b' :: 'o' :: 'x' :: [] : Str)).isPrefixOf _ = false
                    have : y ≠ 'x' := fun hy => by subst hy; simp [pyWs] at hyws
                    simp [List.isPrefixOf, Ne.symm this]
                  rw [h1, h2]
                  simp
                · rw [cwF_cons_nws (by simpa using hyws)]
                  by_cases hy : y = 'x'
                  · subst hy
                    have hpre : ∀ T : Str, "box".data.isPrefixOf ('b' :: 'o' :: 'x' :: T) = true := by
                      intro T
                      show (('b' :: 'o' :: 'x' :: [] : Str)).isPrefixOf _ = true
                      simp [List.isPrefixOf]
                    rw [hpre, hpre]
                    have hdrop : ∀ T : Str, ('b' :: 'o' :: 'x' :: T : Str).drop 3 = T := fun T => rfl
                    rw [hdrop, hdrop]
                    rw [boundaryAfter_cwF]
                  · have hne : ∀ T : Str, "box".data.isPrefixOf ('b' :: 'o' :: y :: T) = false := by
                      intro T
                      show (('b' :: 'o' :: 'x' :: [] : Str)).isPrefixOf _ = false
                      simp [List.isPrefixOf, Ne.symm hy]
                    rw [hne, hne]
                    simp
            · have hne : ∀ T : Str, "box".data.isPrefixOf ('b' :: w :: T) = false := by
                intro T
                show (('b' :: 'o' :: 'x' :: [] : Str)).isPrefixOf _ = false
                simp [List.isPrefixOf, Ne.symm hw]
              rw [hne, hne]
              simp
      · rw [isPrefixOf_box_ne hz, isPrefixOf_box_ne hz]
        simp


lemma matchPoBox_some_intro {cs l4 : Str}
    (h1 : (wsChunk (optDot cs).2).2 = 'o' :: l4)
    (h2 : ("box".data.isPrefixOf (wsChunk (optDot l4).2).2 &&
      boundaryAfter ((wsChunk (optDot l4).2).2.drop 3)) = true) :
    matchPoBox ('p' :: cs) =
      some (1 + (optDot cs).1 + (wsChunk (optDot cs).2).1 + 1 + (optDot l4).1 +
        (wsChunk (optDot l4).2).1 + 3) := by
  rw [matchPoBox]
  rw [h1]
  split
  next l4' heq2 =>
    injection heq2 with h1' h2'
    subst h2'
    rw [if_pos h2]
  next hne => exact absurd rfl (hne l4)

lemma match_tail {cs l4 : Str} (h1 : (wsChunk (optDot cs).2).2 = 'o' :: l4) :
    cs.drop ((optDot cs).1 + (wsChunk (optDot cs).2).1 + 1 + (optDot l4).1 +
      (wsChunk (optDot l4).2).1 + 3) = (wsChunk (optDot l4).2).2.drop 3 := by
  obtain ⟨ho1, -⟩ := optDot_spec cs
  obtain ⟨hw1, -⟩ := wsChunk_spec (optDot cs).2
  obtain ⟨ho2, -⟩ := optDot_spec l4
  obtain ⟨hw2, -⟩ := wsChunk_spec (optDot l4).2
  set a1 := (optDot cs).1 with ha1
  set w1 := (wsChunk (optDot cs).2).1 with hww1
  set a2 := (optDot l4).1 with ha2
  set w2 := (wsChunk (optDot l4).2).1 with hww2
  have hcs1 : (wsChunk (optDot cs).2).2 = cs.drop (w1 + a1) := by
    rw [hw1, ho1, List.drop_drop]
    congr 1
    omega
  have hl4 : l4 = cs.drop (w1 + a1 + 1) := by
    have := drop_of_drop_cons (hcs1 ▸ h1)
    exact this.symm
  have hfin : (wsChunk (optDot l4).2).2 = cs.drop (w2 + a2 + (w1 + a1 + 1)) := by
    rw [hw2, ho2, hl4, List.drop_drop, List.drop_drop]
    congr 1
    omega
  rw [hfin, List.drop_drop]
  congr 1
  omega

lemma matchPoBox_cwF_none {cs : Str} (h : matchPoBox ('p' :: cs) = none) :
    matchPoBox ('p' :: subRunsA pyWs [' '] false cs) = none := by
  rw [matchPoBox_none_iff] at h ⊢
  intro l4' heq'
  rw [optDot_cwF] at heq'
  dsimp only at heq'
  rw [wsChunk_cwF] at heq'
  dsimp only at heq'
  rcases hM : (wsChunk (optDot cs).2).2 with _ | ⟨y, v2⟩
  · rw [hM, subRunsA_nil] at heq'
    exact List.noConfusion heq'
  · rw [hM] at heq'
    by_cases hyws : pyWs y
    · rw [cwF_cons_ws hyws] at heq'
      have hsp : (' ' : Char) = 'o' := (List.cons.inj heq').1
      exact absurd hsp (by decide)
    · rw [cwF_cons_nws (by simpa using hyws)] at heq'
      obtain ⟨hy, hl4'⟩ := List.cons.inj heq'
      subst hy
      subst hl4'
      rw [optDot_cwF]
      dsimp only
      rw [wsChunk_cwF]
      dsimp only
      rw [boxCheck_cwF]
      exact h v2 hM

lemma matchPoBox_cwF_some {cs : Str} {n : ℕ} (h : matchPoBox ('p' :: cs) = some n) :
    ∃ m, matchPoBox ('p' :: subRunsA pyWs [' '] false cs) = some m ∧ 1 ≤ m ∧
      (subRunsA pyWs [' '] false cs).drop (m - 1) =
        subRunsA pyWs [' '] false (cs.drop (n - 1)) := by
  obtain ⟨cs1, heqc, l4, h1, hpre, hbnd, hn⟩ := matchPoBox_inv h
  obtain rfl : cs = cs1 := (List.cons.inj heqc).2
  have h1' : (wsChunk (optDot (subRunsA pyWs [' '] false cs)).2).2 =
      'o' :: subRunsA pyWs [' '] false l4 := by
    rw [optDot_cwF]
    dsimp only
    rw [wsChunk_cwF]
    dsimp only
    rw [h1, cwF_cons_nws (by decide : pyWs 'o' = false)]
  have h2' : ("box".data.isPrefixOf (wsChunk (optDot (subRunsA pyWs [' '] false l4)).2).2 &&
      boundaryAfter ((wsChunk (optDot (subRunsA pyWs [' '] false l4)).2).2.drop 3)) = true := by
    rw [optDot_cwF]
    dsimp only
    rw [wsChunk_cwF]
    dsimp only
    rw [boxCheck_cwF, hpre, hbnd]
    rfl
  refine ⟨_, matchPoBox_some_intro h1' h2', by omega, ?_⟩
  have hT1 := match_tail h1'
  have hidx : 1 + (optDot (subRunsA pyWs [' '] false cs)).1 +
      (wsChunk (optDot (subRunsA pyWs [' '] false cs)).2).1 + 1 +
      (optDot (subRunsA pyWs [' '] false l4)).1 +
      (wsChunk (optDot (subRunsA pyWs [' '] false l4)).2).1 + 3 - 1 =
      (optDot (subRunsA pyWs [' '] false cs)).1 +
      (wsChunk (optDot (subRunsA pyWs [' '] false cs)).2).1 + 1 +
      (optDot (subRunsA pyWs [' '] false l4)).1 +
      (wsChunk (optDot (subRunsA pyWs [' '] false l4)).2).1 + 3 := by
    omega
  rw [hidx, hT1]
  have hT0 := match_tail h1
  have hidx0 : n - 1 = (optDot cs).1 + (wsChunk (optDot cs).2).1 + 1 + (optDot l4).1 +
      (wsChunk (optDot l4).2).1 + 3 := by
    omega
  rw [hidx0, hT0]
  have hM2 : (wsChunk (optDot (subRunsA pyWs [' '] false l4)).2).2 =
      subRunsA pyWs [' '] false (wsChunk (optDot l4).2).2 := by
    rw [optDot_cwF]
    dsimp only
    rw [wsChunk_cwF]
  rw [hM2]
  have hpre' : ("box".data : Str) <+: (wsChunk (optDot l4).2).2 := by
    rwa [← List.isPrefixOf_iff_prefix]
  obtain ⟨T, hT⟩ := hpre'
  rw [← hT]
  have hbT : ("box".data ++ T : Str) = 'b' :: 'o' :: 'x' :: T := rfl
  rw [hbT]
  rw [cwF_cons_nws (by decide), cwF_cons_nws (by decide), cwF_cons_nws (by decide)]
  rfl


lemma scan_dropWhile (u : Str) :
    (subPoBoxA false u).dropWhile pyWs = subPoBoxA false (u.dropWhile pyWs) := by
  induction u with
  | nil => simp [subPoBoxA_nil]
  | cons c u' ih =>
    by_cases hc : pyWs c
    · have hstep : subPoBoxA false (c :: u') = c :: subPoBoxA false u' := by
        have h1 := scan_cons_ne_p (pyWs_ne_p hc) false u'
        rwa [pyWs_not_word hc] at h1
      rw [hstep, List.dropWhile_cons_of_pos hc, List.dropWhile_cons_of_pos hc, ih]
    · obtain ⟨ds, hsc⟩ := @scan_cons_head false (c :: u') c u' rfl
      rw [hsc, List.dropWhile_cons_of_neg hc, List.dropWhile_cons_of_neg hc]
      exact hsc.symm

lemma length_dropWhile_ws_le (u : Str) : (u.dropWhile pyWs).length ≤ u.length := by
  rw [dropWhile_eq_drop]
  simp

lemma cwF_pobox (Y : Str) :
    subRunsA pyWs [' '] false ("po box".data ++ Y) =
      "po box".data ++ subRunsA pyWs [' '] false Y := by
  show subRunsA pyWs [' '] false ('p' :: 'o' :: ' ' :: 'b' :: 'o' :: 'x' :: Y) =
    'p' :: 'o' :: ' ' :: 'b' :: 'o' :: 'x' :: subRunsA pyWs [' '] false Y
  rw [cwF_cons_nws (by decide), cwF_cons_nws (by decide), cwF_cons_ws (by decide),
    cwT_cons_nws (by decide), cwF_cons_nws (by decide), cwF_cons_nws (by decide)]

lemma cwF_scan_aux : ∀ (k : ℕ) (v : Str), v.length ≤ k → ∀ b : Bool,
    subRunsA pyWs [' '] false (subPoBoxA b v) = subPoBoxA b (subRunsA pyWs [' '] false v) := by
  intro k
  induction k with
  | zero =>
    intro v hv b
    have hnil : v = [] := List.eq_nil_of_length_eq_zero (by omega)
    subst hnil
    rw [subPoBoxA_nil, subRunsA_nil, subPoBoxA_nil]
  | succ k ih =>
    intro v hv b
    rcases v with _ | ⟨c, u⟩
    · rw [subPoBoxA_nil, subRunsA_nil, subPoBoxA_nil]
    · have hlu : u.length ≤ k := by
        simp only [List.length_cons] at hv
        omega
      by_cases hcws : pyWs c
      · have hstep : subPoBoxA b (c :: u) = c :: subPoBoxA false u := by
          have h1 := scan_cons_ne_p (pyWs_ne_p hcws) b u
          rwa [pyWs_not_word hcws] at h1
        rw [hstep, cwF_cons_ws hcws, cwF_cons_ws hcws, cwT_eq, cwT_eq, scan_dropWhile]
        have hlen2 : (u.dropWhile pyWs).length ≤ k :=
          le_trans (length_dropWhile_ws_le u) hlu
        rw [ih _ hlen2 false]
        have hstep2 : subPoBoxA b (' ' :: subRunsA pyWs [' '] false (u.dropWhile pyWs)) =
            ' ' :: subPoBoxA false (subRunsA pyWs [' '] false (u.dropWhile pyWs)) := by
          have h1 := scan_cons_ne_p (show (' ' : Char) ≠ 'p' by decide) b
            (subRunsA pyWs [' '] false (u.dropWhile pyWs))
          rwa [show wordChar ' ' = false by decide] at h1
        rw [hstep2]
      · by_cases hcp : c = 'p'
        · subst hcp
          rcases hm : matchPoBox ('p' :: u) with _ | n
          · have hstep : ∀ b' : Bool, subPoBoxA b' ('p' :: u) = 'p' :: subPoBoxA true u := by
              intro b'
              cases b'
              · have h1 := subPoBoxA_false_cons_none hm
                rwa [show wordChar 'p' = true by decide] at h1
              · have h1 := subPoBoxA_true_cons 'p' u
                rwa [show wordChar 'p' = true by decide] at h1
            rw [hstep b, cwF_cons_nws (by decide), cwF_cons_nws (by decide), ih _ hlu true]
            have hstep2 : ∀ b' : Bool, subPoBoxA b' ('p' :: subRunsA pyWs [' '] false u) =
                'p' :: subPoBoxA true (subRunsA pyWs [' '] false u) := by
              intro b'
              cases b'
              · have h1 := subPoBoxA_false_cons_none (matchPoBox_cwF_none hm)
                rwa [show wordChar 'p' = true by decide] at h1
              · have h1 := subPoBoxA_true_cons 'p' (subRunsA pyWs [' '] false u)
                rwa [show wordChar 'p' = true by decide] at h1
            rw [hstep2 b]
          · cases b
            · rw [subPoBoxA_false_cons_some hm, cwF_pobox]
              have hld : (u.drop (n - 1)).length ≤ k := by
                have : (u.drop (n - 1)).length ≤ u.length := by
                  rw [List.length_drop]
                  omega
                omega
              rw [ih _ hld true]
              obtain ⟨m, hm', hm1, hdrop⟩ := matchPoBox_cwF_some hm
              rw [cwF_cons_nws (by decide), subPoBoxA_false_cons_some hm', hdrop]
            · have h1 := subPoBoxA_true_cons 'p' u
              rw [show wordChar 'p' = true by decide] at h1
              rw [h1, cwF_cons_nws (by decide), cwF_cons_nws (by decide), ih _ hlu true]
              have h2 := subPoBoxA_true_cons 'p' (subRunsA pyWs [' '] false u)
              rw [show wordChar 'p' = true by decide] at h2
              rw [h2]
        · rw [scan_cons_ne_p hcp b u, cwF_cons_nws (by simpa using hcws),
            cwF_cons_nws (by simpa using hcws), ih _ hlu (wordChar c),
            scan_cons_ne_p hcp b (subRunsA pyWs [' '] false u)]

lemma cwF_scan (b : Bool) (v : Str) :
    subRunsA pyWs [' '] false (subPoBoxA b v) = subPoBoxA b (subRunsA pyWs [' '] false v) :=
  cwF_scan_aux v.length v (Nat.le_refl _) b


lemma wsChunk_all_ws {WS : Str} (h : ∀ c ∈ WS, pyWs c = true) :
    wsChunk WS = (WS.length, []) := by
  induction WS with
  | nil => rfl
  | cons w WS' ih =>
    rw [wsChunk_cons_ws (h w (List.mem_cons_self w WS'))]
    rw [ih (fun c hc => h c (List.mem_cons_of_mem w hc))]
    simp [Nat.add_comm]

lemma optDot_append_ws {WS : Str} (h : ∀ c ∈ WS, pyWs c = true) (y : Str) :
    optDot (y ++ WS) = ((optDot y).1, (optDot y).2 ++ WS) := by
  rcases y with _ | ⟨c, y'⟩
  · rcases WS with _ | ⟨w, WS'⟩
    · rfl
    · have hw := h w (List.mem_cons_self w WS')
      have hwd : w ≠ '.' := fun hd => by subst hd; simp [pyWs] at hw
      rw [List.nil_append, optDot_not_dot hwd]
      rfl
  · by_cases hdot : c = '.'
    · subst hdot
      rfl
    · rw [List.cons_append, optDot_not_dot hdot, optDot_not_dot hdot]
      rfl

lemma wsChunk_append_ws_all {WS y : Str} (h : ∀ c ∈ WS, pyWs c = true)
    (hy : (wsChunk y).2 = []) :
    wsChunk (y ++ WS) = ((wsChunk y).1 + WS.length, []) := by
  induction y with
  | nil =>
    rw [List.nil_append, wsChunk_all_ws h]
    simp [wsChunk]
  | cons c y' ih =>
    by_cases hc : pyWs c
    · rw [wsChunk_cons_ws hc] at hy ⊢
      rw [List.cons_append, wsChunk_cons_ws hc, ih hy]
      simp
      omega
    · rw [wsChunk_cons_not_ws (by simpa using hc)] at hy
      exact absurd hy (by simp)

lemma wsChunk_append_ws_ne {WS y : Str} (h : ∀ c ∈ WS, pyWs c = true)
    (hy : (wsChunk y).2 ≠ []) :
    wsChunk (y ++ WS) = ((wsChunk y).1, (wsChunk y).2 ++ WS) := by
  induction y with
  | nil => exact absurd rfl hy
  | cons c y' ih =>
    by_cases hc : pyWs c
    · rw [wsChunk_cons_ws hc] at hy ⊢
      rw [List.cons_append, wsChunk_cons_ws hc, ih hy]
    · rw [List.cons_append, wsChunk_cons_not_ws (by simpa using hc),
        wsChunk_cons_not_ws (by simpa using hc)]
      rfl

lemma boundary_append_ws {WS : Str} (h : ∀ c ∈ WS, pyWs c = true) (X : Str) :
    boundaryAfter (X ++ WS) = boundaryAfter X := by
  rcases X with _ | ⟨d, X'⟩
  · rcases WS with _ | ⟨w, WS'⟩
    · rfl
    · show (!wordChar w) = true
      rw [pyWs_not_word (h w (List.mem_cons_self w WS'))]
      rfl
  · rfl

lemma boxCheck_append_ws {WS : Str} (h : ∀ c ∈ WS, pyWs c = true) (S : Str) :
    ("box".data.isPrefixOf (S ++ WS) && boundaryAfter ((S ++ WS).drop 3)) =
    ("box".data.isPrefixOf S && boundaryAfter (S.drop 3)) := by
  have hne : ∀ w, pyWs w = true → w ≠ 'b' ∧ w ≠ 'o' ∧ w ≠ 'x' := by
    intro w hw
    refine ⟨?_, ?_, ?_⟩ <;> (intro hh; subst hh; simp [pyWs] at hw)
  rcases S with _ | ⟨s1, S1⟩
  · rcases WS with _ | ⟨w, WS'⟩
    · rfl
    · obtain ⟨h1, -, -⟩ := hne w (h w (List.mem_cons_self w WS'))
      rw [List.nil_append, isPrefixOf_box_ne h1]
      rfl
  · by_cases hs1 : s1 = 'b'
    · subst hs1
      rcases S1 with _ | ⟨s2, S2⟩
      · rcases WS with _ | ⟨w, WS'⟩
        · rfl
        · obtain ⟨-, h2, -⟩ := hne w (h w (List.mem_cons_self w WS'))
          have : "box".data.isPrefixOf ('b' :: w :: WS') = false := by
            show (('b' :: 'o' :: 'x' :: [] : Str)).isPrefixOf _ = false
            simp [List.isPrefixOf, Ne.symm h2]
          rw [List.cons_append, List.nil_append, this]
          rfl
      · by_cases hs2 : s2 = 'o'
        · subst hs2
          rcases S2 with _ | ⟨s3, S3⟩
          · rcases WS with _ | ⟨w, WS'⟩
            · rfl
            · obtain ⟨-, -, h3⟩ := hne w (h w (List.mem_cons_self w WS'))
              have : "box".data.isPrefixOf ('b' :: 'o' :: w :: WS') = false := by
                show (('b' :: 'o' :: 'x' :: [] : Str)).isPrefixOf _ = false
                simp [List.isPrefixOf, Ne.symm h3]
              rw [List.cons_append, List.cons_append, List.nil_append, this]
              have : "box".data.isPrefixOf ('b' :: 'o' :: [] : Str) = false := by decide
              rw [this]
              rfl
          · by_cases hs3 : s3 = 'x'
            · subst hs3
              have hpre : ∀ T : Str, "box".data.isPrefixOf ('b' :: 'o' :: 'x' :: T) = true := by
                intro T
                show (('b' :: 'o' :: 'x' :: [] : Str)).isPrefixOf _ = true
                simp [List.isPrefixOf]
              have hd3 : ∀ T : Str, ('b' :: 'o' :: 'x' :: T : Str).drop 3 = T := fun T => rfl
              show ("box".data.isPrefixOf ('b' :: 'o' :: 'x' :: (S3 ++ WS)) &&
                boundaryAfter (('b' :: 'o' :: 'x' :: (S3 ++ WS) : Str).drop 3)) = _
              rw [hpre, hpre, hd3, hd3, boundary_append_ws h]
            · have hq : ∀ T : Str, "box".data.isPrefixOf ('b' :: 'o' :: s3 :: T) = false := by
                intro T
                show (('b' :: 'o' :: 'x' :: [] : Str)).isPrefixOf _ = false
                simp [List.isPrefixOf, Ne.symm hs3]
              show ("box".data.isPrefixOf ('b' :: 'o' :: s3 :: (S3 ++ WS)) && _) = _
              rw [hq, hq]
              rfl
        · have hq : ∀ T : Str, "box".data.isPrefixOf ('b' :: s2 :: T) = false := by
            intro T
            show (('b' :: 'o' :: 'x' :: [] : Str)).isPrefixOf _ = false
            simp [List.isPrefixOf, Ne.symm hs2]
          show ("box".data.isPrefixOf ('b' :: s2 :: (S2 ++ WS)) && _) = _
          rw [hq, hq]
          rfl
    · rw [List.cons_append, isPrefixOf_box_ne hs1, isPrefixOf_box_ne hs1]
      rfl


lemma drop_append_le {A B : Str} {k : ℕ} (hk : k ≤ A.length) :
    (A ++ B).drop k = A.drop k ++ B := by
  rw [List.drop_append_eq_append_drop, Nat.sub_eq_zero_of_le hk, List.drop_zero]

lemma matchPoBox_append_ws {WS : Str} (h : ∀ c ∈ WS, pyWs c = true) (y : Str) :
    matchPoBox (y ++ WS) = matchPoBox y := by
  rcases y with _ | ⟨c, y'⟩
  · rcases WS with _ | ⟨w, WS'⟩
    · rfl
    · rw [List.nil_append]
      exact matchPoBox_ne_p (pyWs_ne_p (h w (List.mem_cons_self w WS')))
  · by_cases hcp : c = 'p'
    · subst hcp
      rw [List.cons_append]
      rcases hm : matchPoBox ('p' :: y') with _ | n
      · rw [matchPoBox_none_iff] at hm ⊢
        intro l4' heq'
        rw [optDot_append_ws h] at heq'
        dsimp only at heq'
        by_cases hz : (wsChunk (optDot y').2).2 = []
        · rw [wsChunk_append_ws_all h hz] at heq'
          exact List.noConfusion heq'
        · rw [wsChunk_append_ws_ne h hz] at heq'
          dsimp only at heq'
          rcases hM : (wsChunk (optDot y').2).2 with _ | ⟨z, v2⟩
          · exact absurd hM hz
          · rw [hM, List.cons_append] at heq'
            obtain ⟨hzo, hl4'⟩ := List.cons.inj heq'
            subst hzo
            subst hl4'
            rw [optDot_append_ws h]
            dsimp only
            by_cases hz2 : (wsChunk (optDot v2).2).2 = []
            · rw [wsChunk_append_ws_all h hz2]
              dsimp only
              rfl
            · rw [wsChunk_append_ws_ne h hz2]
              dsimp only
              rw [boxCheck_append_ws h]
              exact hm v2 hM
      · obtain ⟨cs1, heqc, l4, h1, hpre, hbnd, hn⟩ := matchPoBox_inv hm
        obtain rfl : y' = cs1 := (List.cons.inj heqc).2
        have hz1 : (wsChunk (optDot y').2).2 ≠ [] := by
          rw [h1]
          simp
        have hz2 : (wsChunk (optDot l4).2).2 ≠ [] := by
          intro hq
          rw [hq] at hpre
          exact absurd hpre (by decide)
        have h1' : (wsChunk (optDot (y' ++ WS)).2).2 = 'o' :: (l4 ++ WS) := by
          rw [optDot_append_ws h]
          dsimp only
          rw [wsChunk_append_ws_ne h hz1]
          dsimp only
          rw [h1, List.cons_append]
        have h2' : ("box".data.isPrefixOf (wsChunk (optDot (l4 ++ WS)).2).2 &&
            boundaryAfter ((wsChunk (optDot (l4 ++ WS)).2).2.drop 3)) = true := by
          rw [optDot_append_ws h]
          dsimp only
          rw [wsChunk_append_ws_ne h hz2]
          dsimp only
          rw [boxCheck_append_ws h, hpre, hbnd]
          rfl
        rw [matchPoBox_some_intro h1' h2']
        have e1 : (optDot (y' ++ WS)).1 = (optDot y').1 := by
          rw [optDot_append_ws h]
        have e2 : (wsChunk (optDot (y' ++ WS)).2).1 = (wsChunk (optDot y').2).1 := by
          rw [optDot_append_ws h]
          dsimp only
          rw [wsChunk_append_ws_ne h hz1]
        have e3 : (optDot (l4 ++ WS)).1 = (optDot l4).1 := by
          rw [optDot_append_ws h]
        have e4 : (wsChunk (optDot (l4 ++ WS)).2).1 = (wsChunk (optDot l4).2).1 := by
          rw [optDot_append_ws h]
          dsimp only
          rw [wsChunk_append_ws_ne h hz2]
        rw [e1, e2, e3, e4, hn]
    · rw [List.cons_append, matchPoBox_ne_p hcp, matchPoBox_ne_p hcp]

lemma scan_ws_id {WS : Str} (h : ∀ c ∈ WS, pyWs c = true) : ∀ b, subPoBoxA b WS = WS := by
  induction WS with
  | nil => intro b; exact subPoBoxA_nil b
  | cons w WS' ih =>
    intro b
    have hw := h w (List.mem_cons_self w WS')
    rw [scan_cons_ne_p (pyWs_ne_p hw) b WS', pyWs_not_word hw,
      ih (fun c hc => h c (List.mem_cons_of_mem w hc)) false]

lemma scan_append_ws {WS : Str} (h : ∀ c ∈ WS, pyWs c = true) (b : Bool) (Z : Str) :
    subPoBoxA b (Z ++ WS) = subPoBoxA b Z ++ WS := by
  induction b, Z using subPoBoxA.induct
  case case1 b => rw [List.nil_append, subPoBoxA_nil, scan_ws_id h, List.nil_append]
  case case2 c cs ih =>
    rw [List.cons_append, subPoBoxA_true_cons, subPoBoxA_true_cons, ih, List.cons_append]
  case case3 b c cs hb n hm ih =>
    rw [Bool.not_eq_true] at hb
    subst hb
    have hmw : matchPoBox (c :: (cs ++ WS)) = some n := by
      have hsh : (c :: (cs ++ WS) : Str) = (c :: cs) ++ WS := rfl
      rw [hsh, matchPoBox_append_ws h, hm]
    rw [List.cons_append, subPoBoxA_false_cons_some hmw, subPoBoxA_false_cons_some hm]
    have hlen : n - 1 ≤ cs.length := by
      have hle := (matchPoBox_drop hm).1
      simp only [List.length_cons] at hle
      omega
    rw [drop_append_le hlen, ih, List.append_assoc]
  case case4 b c cs hb hm ih =>
    rw [Bool.not_eq_true] at hb
    subst hb
    have hmw : matchPoBox (c :: (cs ++ WS)) = none := by
      have hsh : (c :: (cs ++ WS) : Str) = (c :: cs) ++ WS := rfl
      rw [hsh, matchPoBox_append_ws h, hm]
    rw [List.cons_append, subPoBoxA_false_cons_none hmw, subPoBoxA_false_cons_none hm, ih,
      List.cons_append]


lemma dropWhile_self_of_head {X : Str} (h : ∀ c, X.head? = some c → pyWs c = false) :
    X.dropWhile pyWs = X := by
  rcases X with _ | ⟨c, X'⟩
  · rfl
  · rw [List.dropWhile_cons_of_neg (by simp [h c rfl])]

lemma dropWhile_append_of_all {L1 L2 : Str} (h : ∀ c ∈ L1, pyWs c = true) :
    (L1 ++ L2).dropWhile pyWs = L2.dropWhile pyWs := by
  induction L1 with
  | nil => rfl
  | cons c L1' ih =>
    rw [List.cons_append, List.dropWhile_cons_of_pos (h c (List.mem_cons_self c L1'))]
    exact ih (fun d hd => h d (List.mem_cons_of_mem c hd))

lemma rstrip_append_ws {A WS : Str} (h : ∀ c ∈ WS, pyWs c = true) :
    (((A ++ WS).reverse.dropWhile pyWs).reverse : Str) = (A.reverse.dropWhile pyWs).reverse := by
  rw [List.reverse_append, dropWhile_append_of_all (fun c hc => h c (List.mem_reverse.mp hc))]

lemma rstrip_self_of_ends {A : Str} (h : ∀ c, A.reverse.head? = some c → pyWs c = false) :
    ((A.reverse.dropWhile pyWs).reverse : Str) = A := by
  rw [dropWhile_self_of_head h, List.reverse_reverse]

lemma cwL1 (v : Str) :
    (subRunsA pyWs [' '] false v).dropWhile pyWs =
      subRunsA pyWs [' '] false (v.dropWhile pyWs) := by
  rcases v with _ | ⟨c, cs⟩
  · rfl
  · by_cases hc : pyWs c
    · rw [cwF_cons_ws hc, List.dropWhile_cons_of_pos (by decide : pyWs ' ' = true), cwT_eq,
        List.dropWhile_cons_of_pos hc]
      exact dropWhile_self_of_head (fun d hd => cwF_dropped_head hd)
    · rw [cwF_cons_nws (by simpa using hc), List.dropWhile_cons_of_neg hc,
        List.dropWhile_cons_of_neg hc, cwF_cons_nws (by simpa using hc)]

lemma cwF_idem_aux : ∀ (k : ℕ) (u : Str), u.length ≤ k →
    subRunsA pyWs [' '] false (subRunsA pyWs [' '] false u) = subRunsA pyWs [' '] false u := by
  intro k
  induction k with
  | zero =>
    intro u hu
    have hnil : u = [] := List.eq_nil_of_length_eq_zero (by omega)
    subst hnil
    rfl
  | succ k ih =>
    intro u hu
    rcases u with _ | ⟨c, cs⟩
    · rfl
    · have hlu : cs.length ≤ k := by
        simp only [List.length_cons] at hu
        omega
      by_cases hc : pyWs c
      · rw [cwF_cons_ws hc, cwT_eq, cwF_cons_ws (by decide : pyWs ' ' = true), cwT_eq,
          dropWhile_self_of_head (fun d hd => cwF_dropped_head hd)]
        have hlen2 : (cs.dropWhile pyWs).length ≤ k :=
          le_trans (length_dropWhile_ws_le cs) hlu
        rw [ih _ hlen2]
      · rw [cwF_cons_nws (by simpa using hc), cwF_cons_nws (by simpa using hc), ih _ hlu]

lemma cwF_idem (u : Str) :
    subRunsA pyWs [' '] false (subRunsA pyWs [' '] false u) = subRunsA pyWs [' '] false u :=
  cwF_idem_aux u.length u (Nat.le_refl _)

lemma chars_subRunsA {p : Char → Bool} {r : Str} :
    ∀ (v : Str) (b : Bool) (c : Char), c ∈ subRunsA p r b v → c ∈ v ∨ c ∈ r := by
  intro v
  induction v with
  | nil =>
    intro b c hc
    exact absurd hc (by simp [subRunsA])
  | cons d v' ih =>
    intro b c hc
    by_cases hd : p d
    · cases b
      · rw [show subRunsA p r false (d :: v') = r ++ subRunsA p r true v' by
          simp [subRunsA, hd]] at hc
        rcases List.mem_append.mp hc with hr | hrec
        · exact Or.inr hr
        · rcases ih true c hrec with hv | hr
          · exact Or.inl (List.mem_cons_of_mem d hv)
          · exact Or.inr hr
      · rw [show subRunsA p r true (d :: v') = subRunsA p r true v' by
          simp [subRunsA, hd]] at hc
        rcases ih true c hc with hv | hr
        · exact Or.inl (List.mem_cons_of_mem d hv)
        · exact Or.inr hr
    · rw [show subRunsA p r b (d :: v') = d :: subRunsA p r false v' by
        simp [subRunsA, hd]] at hc
      rcases List.mem_cons.mp hc with hcd | hrec
      · exact Or.inl (hcd ▸ List.mem_cons_self d v')
      · rcases ih false c hrec with hv | hr
        · exact Or.inl (List.mem_cons_of_mem d hv)
        · exact Or.inr hr

lemma cw_append_ws_gen {WS : Str} (h : ∀ c ∈ WS, pyWs c = true) :
    ∀ (Z : Str) (b : Bool), ∃ WS', (∀ c ∈ WS', pyWs c = true) ∧
      subRunsA pyWs [' '] b (Z ++ WS) = subRunsA pyWs [' '] b Z ++ WS' := by
  intro Z
  induction Z with
  | nil =>
    intro b
    refine ⟨subRunsA pyWs [' '] b WS, ?_, by rw [List.nil_append, subRunsA_nil, List.nil_append]⟩
    intro c hc
    rcases chars_subRunsA WS b c hc with hv | hr
    · exact h c hv
    · rcases List.mem_singleton.mp hr with rfl
      decide
  | cons d Z' ih =>
    intro b
    by_cases hd : pyWs d
    · obtain ⟨WS', hWS', heq⟩ := ih true
      cases b
      · exact ⟨WS', hWS', by rw [List.cons_append, cwF_cons_ws hd, cwF_cons_ws hd, heq,
          List.cons_append]⟩
      · exact ⟨WS', hWS', by rw [List.cons_append, cwT_cons_ws hd, cwT_cons_ws hd, heq]⟩
    · obtain ⟨WS', hWS', heq⟩ := ih false
      cases b
      · exact ⟨WS', hWS', by rw [List.cons_append, cwF_cons_nws (by simpa using hd),
          cwF_cons_nws (by simpa using hd), heq, List.cons_append]⟩
      · exact ⟨WS', hWS', by rw [List.cons_append, cwT_cons_nws (by simpa using hd),
          cwT_cons_nws (by simpa using hd), heq, List.cons_append]⟩


lemma rstrip_dec (X : Str) :
    X = (X.reverse.dropWhile pyWs).reverse ++ (X.reverse.takeWhile pyWs).reverse ∧
    (∀ c ∈ (X.reverse.takeWhile pyWs).reverse, pyWs c = true) := by
  constructor
  · have h0 : X.reverse.takeWhile pyWs ++ X.reverse.dropWhile pyWs = X.reverse :=
      List.takeWhile_append_dropWhile pyWs X.reverse
    calc X = X.reverse.reverse := (List.reverse_reverse X).symm
    _ = (X.reverse.takeWhile pyWs ++ X.reverse.dropWhile pyWs).reverse := by rw [h0]
    _ = (X.reverse.dropWhile pyWs).reverse ++ (X.reverse.takeWhile pyWs).reverse :=
      List.reverse_append _ _
  · intro c hc
    exact List.mem_takeWhile_imp (List.mem_reverse.mp hc)

/-- Stage (d): the `p.o. box` scan fixes `pyStrip (cw (subPoBox W))`. -/
lemma scan_strip_cw_fix (W : Str) :
    subPoBoxA false (pyStrip (subRunsA pyWs [' '] false (subPoBoxA false W))) =
      pyStrip (subRunsA pyWs [' '] false (subPoBoxA false W)) := by
  have hU : subPoBoxA false (subRunsA pyWs [' '] false (subPoBoxA false W)) =
      subRunsA pyWs [' '] false (subPoBoxA false W) := by
    rw [← cwF_scan, subPoBoxA_idem]
  simp only [pyStrip]
  set X := (subRunsA pyWs [' '] false (subPoBoxA false W)).dropWhile pyWs with hX
  have hU1 : subPoBoxA false X = X := by
    rw [hX, ← scan_dropWhile, hU]
  obtain ⟨hdec, hws⟩ := rstrip_dec X
  set N := (X.reverse.dropWhile pyWs).reverse with hNdef
  set WS := (X.reverse.takeWhile pyWs).reverse with hWSdef
  have hkey := scan_append_ws hws false N
  rw [← hdec, hU1] at hkey
  have hcomb : subPoBoxA false N ++ WS = N ++ WS := hkey.symm.trans hdec
  exact List.append_cancel_right hcomb

/-- Stage (e): collapsing whitespace and stripping again is a no-op. -/
lemma strip_cw_strip_cw (V : Str) :
    pyStrip (subRunsA pyWs [' '] false (pyStrip (subRunsA pyWs [' '] false V))) =
      pyStrip (subRunsA pyWs [' '] false V) := by
  simp only [pyStrip]
  set X := (subRunsA pyWs [' '] false V).dropWhile pyWs with hX
  have hfixX : subRunsA pyWs [' '] false X = X := by
    rw [hX, cwL1, cwF_idem]
  obtain ⟨hdec, hws⟩ := rstrip_dec X
  set N := (X.reverse.dropWhile pyWs).reverse with hNdef
  set WS := (X.reverse.takeWhile pyWs).reverse with hWSdef
  obtain ⟨WS', hWS', hcw⟩ := cw_append_ws_gen hws N false
  have heq : subRunsA pyWs [' '] false N ++ WS' = N ++ WS := by
    rw [← hcw, ← hdec, hfixX, hdec]
  have hXhead : ∀ d, X.head? = some d → pyWs d = false := by
    intro d hd
    rw [hX] at hd
    exact dropWhile_head_not hd
  have hNhead : ∀ c, N.head? = some c → pyWs c = false := by
    intro c hc
    rcases hN : N with _ | ⟨e, N'⟩
    · rw [hN] at hc
      exact Option.noConfusion hc
    · rw [hN] at hc
      injection hc with he
      have hXh : X.head? = some e := by
        rw [hdec, hN]
        rfl
      exact he ▸ hXhead e hXh
  have hNends : ∀ c, N.reverse.head? = some c → pyWs c = false := by
    intro c hc
    rw [hNdef, List.reverse_reverse] at hc
    exact dropWhile_head_not hc
  have hdw : (subRunsA pyWs [' '] false N).dropWhile pyWs = subRunsA pyWs [' '] false N := by
    rw [cwL1, dropWhile_self_of_head hNhead]
  calc (((subRunsA pyWs [' '] false N).dropWhile pyWs).reverse.dropWhile pyWs).reverse
      = ((subRunsA pyWs [' '] false N).reverse.dropWhile pyWs).reverse := by rw [hdw]
    _ = (((subRunsA pyWs [' '] false N ++ WS').reverse.dropWhile pyWs).reverse) :=
      (rstrip_append_ws hWS').symm
    _ = (((N ++ WS).reverse.dropWhile pyWs).reverse) := by rw [heq]
    _ = ((N.reverse.dropWhile pyWs).reverse) := rstrip_append_ws hws
    _ = N := rstrip_self_of_ends hNends


lemma toNat_ofNat_valid {n : ℕ} (h : Nat.isValidChar n) : (Char.ofNat n).toNat = n := by
  unfold Char.ofNat
  rw [dif_pos h]
  simp [Char.ofNatAux, Char.toNat, UInt32.toNat]

lemma toLower_def (d : Char) :
    Char.toLower d = if d.toNat ≥ 65 ∧ d.toNat ≤ 90 then Char.ofNat (d.toNat + 32) else d := rfl

lemma toLower_idem (c : Char) : Char.toLower (Char.toLower c) = Char.toLower c := by
  by_cases h : c.toNat ≥ 65 ∧ c.toNat ≤ 90
  · rw [toLower_def c, if_pos h, toLower_def]
    have hv : Nat.isValidChar (c.toNat + 32) := Or.inl (by omega)
    rw [toNat_ofNat_valid hv]
    rw [if_neg (by omega)]
  · rw [toLower_def c, if_neg h, toLower_def c, if_neg h]


lemma chars_subRunsA_strong {p : Char → Bool} {r : Str} :
    ∀ (v : Str) (b : Bool) (c : Char), c ∈ subRunsA p r b v →
      (c ∈ v ∧ p c = false) ∨ c ∈ r := by
  intro v
  induction v with
  | nil =>
    intro b c hc
    exact absurd hc (by simp [subRunsA])
  | cons d v' ih =>
    intro b c hc
    by_cases hd : p d
    · cases b
      · rw [show subRunsA p r false (d :: v') = r ++ subRunsA p r true v' by
          simp [subRunsA, hd]] at hc
        rcases List.mem_append.mp hc with hr | hrec
        · exact Or.inr hr
        · rcases ih true c hrec with ⟨hv, hp⟩ | hr
          · exact Or.inl ⟨List.mem_cons_of_mem d hv, hp⟩
          · exact Or.inr hr
      · rw [show subRunsA p r true (d :: v') = subRunsA p r true v' by
          simp [subRunsA, hd]] at hc
        rcases ih true c hc with ⟨hv, hp⟩ | hr
        · exact Or.inl ⟨List.mem_cons_of_mem d hv, hp⟩
        · exact Or.inr hr
    · rw [show subRunsA p r b (d :: v') = d :: subRunsA p r false v' by
        simp [subRunsA, hd]] at hc
      rcases List.mem_cons.mp hc with rfl | hrec
      · exact Or.inl ⟨List.mem_cons_self c v', by simpa using hd⟩
      · rcases ih false c hrec with ⟨hv, hp⟩ | hr
        · exact Or.inl ⟨List.mem_cons_of_mem d hv, hp⟩
        · exact Or.inr hr

lemma chars_subPoBoxA : ∀ (b : Bool) (v : Str) (c : Char),
    c ∈ subPoBoxA b v → c ∈ v ∨ c ∈ "po box".data := by
  intro b v
  induction b, v using subPoBoxA.induct
  case case1 b =>
    intro c hc
    rw [subPoBoxA_nil] at hc
    exact absurd hc (List.not_mem_nil c)
  case case2 c0 cs ih =>
    intro c hc
    rw [subPoBoxA_true_cons] at hc
    rcases List.mem_cons.mp hc with rfl | h2
    · exact Or.inl (List.mem_cons_self _ _)
    · rcases ih c h2 with hv | hp
      · exact Or.inl (List.mem_cons_of_mem _ hv)
      · exact Or.inr hp
  case case3 b c0 cs hb n hm ih =>
    rw [Bool.not_eq_true] at hb
    subst hb
    intro c hc
    rw [subPoBoxA_false_cons_some hm] at hc
    rcases List.mem_append.mp hc with hp | h2
    · exact Or.inr hp
    · rcases ih c h2 with hv | hp
      · exact Or.inl (List.mem_cons_of_mem _ (List.mem_of_mem_drop hv))
      · exact Or.inr hp
  case case4 b c0 cs hb hm ih =>
    rw [Bool.not_eq_true] at hb
    subst hb
    intro c hc
    rw [subPoBoxA_false_cons_none hm] at hc
    rcases List.mem_cons.mp hc with rfl | h2
    · exact Or.inl (List.mem_cons_self _ _)
    · rcases ih c h2 with hv | hp
      · exact Or.inl (List.mem_cons_of_mem _ hv)
      · exact Or.inr hp

lemma chars_subWordA (w r : Str) : ∀ (v acc : Str) (c : Char),
    c ∈ subWordA w r acc v → c ∈ acc ∨ c ∈ v ∨ c ∈ r := by
  intro v
  induction v with
  | nil =>
    intro acc c hc
    rw [subWordA, flushRun] at hc
    by_cases ha : acc = w
    · rw [if_pos ha] at hc
      exact Or.inr (Or.inr hc)
    · rw [if_neg ha] at hc
      exact Or.inl hc
  | cons d v' ih =>
    intro acc c hc
    rw [subWordA] at hc
    by_cases hd : wordChar d
    · rw [if_pos hd] at hc
      rcases ih (acc ++ [d]) c hc with h1 | h2 | h3
      · rcases List.mem_append.mp h1 with h | h
        · exact Or.inl h
        · obtain rfl : c = d := List.mem_singleton.mp h
          exact Or.inr (Or.inl (List.mem_cons_self c v'))
      · exact Or.inr (Or.inl (List.mem_cons_of_mem d h2))
      · exact Or.inr (Or.inr h3)
    · rw [if_neg hd] at hc
      rcases List.mem_append.mp hc with h1 | h2
      · rw [flushRun] at h1
        by_cases ha : acc = w
        · rw [if_pos ha] at h1
          exact Or.inr (Or.inr h1)
        · rw [if_neg ha] at h1
          exact Or.inl h1
      · rcases List.mem_cons.mp h2 with rfl | h3
        · exact Or.inr (Or.inl (List.mem_cons_self _ _))
        · rcases ih [] c h3 with h | h | h
          · exact absurd h (List.not_mem_nil c)
          · exact Or.inr (Or.inl (List.mem_cons_of_mem d h))
          · exact Or.inr (Or.inr h)

lemma chars_subWord {w r v : Str} {c : Char} (hc : c ∈ subWord w r v) : c ∈ v ∨ c ∈ r := by
  rcases chars_subWordA w r v [] c hc with h | h | h
  · exact absurd h (List.not_mem_nil c)
  · exact Or.inl h
  · exact Or.inr h

lemma mem_of_mem_dropWhile {p : Char → Bool} {v : Str} {c : Char}
    (hc : c ∈ v.dropWhile p) : c ∈ v := by
  rw [dropWhile_eq_drop] at hc
  exact List.mem_of_mem_drop hc

lemma chars_pyStrip {v : Str} {c : Char} (hc : c ∈ pyStrip v) : c ∈ v := by
  simp only [pyStrip] at hc
  rw [List.mem_reverse] at hc
  have h1 := mem_of_mem_dropWhile hc
  rw [List.mem_reverse] at h1
  exact mem_of_mem_dropWhile h1


lemma subWords_expand (v : Str) :
    PS.subWords v =
      subWord "ln".data "lane".data (subWord "blvd".data "boulevard".data
        (subWord "av".data "avenue".data (subWord "ave".data "avenue".data
          (subWord "rd".data "road".data (subWord "str".data "street".data
            (subWord "st".data "street".data v)))))) := rfl

lemma chars_normalize {s : Str} {c : Char} (hc : c ∈ PS.normalize_text s) :
    Char.toLower c = c ∧ textPunct c = false := by
  have hrepl : ∀ d : Char,
      (d ∈ ("street".data : Str) ∨ d ∈ ("road".data : Str) ∨ d ∈ ("avenue".data : Str) ∨
        d ∈ ("boulevard".data : Str) ∨ d ∈ ("lane".data : Str)) →
      Char.toLower d = d ∧ textPunct d = false := by
    intro d hd
    rcases hd with h | h | h | h | h <;> fin_cases h <;> exact ⟨by decide, by decide⟩
  have hW : ∀ X : Str, c ∈ PS.subWords X →
      c ∈ X ∨ (Char.toLower c = c ∧ textPunct c = false) := by
    intro X hX
    rw [subWords_expand] at hX
    rcases chars_subWord hX with h4 | h4
    · rcases chars_subWord h4 with h5 | h5
      · rcases chars_subWord h5 with h6 | h6
        · rcases chars_subWord h6 with h7 | h7
          · rcases chars_subWord h7 with h8 | h8
            · rcases chars_subWord h8 with h9 | h9
              · rcases chars_subWord h9 with h10 | h10
                · exact Or.inl h10
                · exact Or.inr (hrepl c (Or.inl h10))
              · exact Or.inr (hrepl c (Or.inl h9))
            · exact Or.inr (hrepl c (Or.inr (Or.inl h8)))
          · exact Or.inr (hrepl c (Or.inr (Or.inr (Or.inl h7))))
        · exact Or.inr (hrepl c (Or.inr (Or.inr (Or.inl h6))))
      · exact Or.inr (hrepl c (Or.inr (Or.inr (Or.inr (Or.inl h5)))))
    · exact Or.inr (hrepl c (Or.inr (Or.inr (Or.inr (Or.inr h4)))))
  by_cases hs : s = []
  · subst hs
    rw [PS.normalize_text, if_pos rfl] at hc
    exact absurd hc (List.not_mem_nil c)
  · rw [PS.normalize_text, if_neg hs] at hc
    have h1 := chars_pyStrip hc
    rw [subRuns] at h1
    rcases chars_subRunsA _ false c h1 with h2 | h2
    · rw [subPoBox] at h2
      rcases chars_subPoBoxA false _ c h2 with h3 | h3
      · rcases hW _ h3 with h10 | hdone
        · rw [subRuns] at h10
          rcases chars_subRunsA_strong _ false c h10 with ⟨hmem, hpunct⟩ | hsp
          · rw [pyLower] at hmem
            obtain ⟨d, -, rfl⟩ := List.mem_map.mp hmem
            exact ⟨toLower_idem d, hpunct⟩
          · obtain rfl : c = ' ' := List.mem_singleton.mp hsp
            exact ⟨by decide, by decide⟩
        · exact hdone
      · fin_cases h3 <;> exact ⟨by decide, by decide⟩
    · obtain rfl : c = ' ' := List.mem_singleton.mp h2
      exact ⟨by decide, by decide⟩

lemma map_self_of {f : Char → Char} : ∀ {l : Str}, (∀ c ∈ l, f c = c) → l.map f = l := by
  intro l
  induction l with
  | nil => intro h; rfl
  | cons c cs ih =>
    intro h
    rw [List.map_cons, h c (List.mem_cons_self c cs),
      ih (fun d hd => h d (List.mem_cons_of_mem c hd))]

lemma subRuns_id_of {p : Char → Bool} {r : Str} : ∀ {v : Str},
    (∀ c ∈ v, p c = false) → subRunsA p r false v = v := by
  intro v
  induction v with
  | nil => intro h; rfl
  | cons d v' ih =>
    intro h
    rw [show subRunsA p r false (d :: v') = d :: subRunsA p r false v' by
      simp [subRunsA, h d (List.mem_cons_self d v')]]
    rw [ih (fun c hc => h c (List.mem_cons_of_mem d hc))]

lemma lower_norm_fix (s : Str) : pyLower (PS.normalize_text s) = PS.normalize_text s := by
  rw [pyLower]
  exact map_self_of (fun c hc => (chars_normalize hc).1)

lemma punct_norm_fix (s : Str) :
    subRuns textPunct [' '] (PS.normalize_text s) = PS.normalize_text s := by
  rw [subRuns]
  exact subRuns_id_of (fun c hc => (chars_normalize hc).2)



lemma wordRunsA_cons_word {c : Char} (hc : wordChar c = true) (acc cs : Str) :
    wordRunsA acc (c :: cs) = wordRunsA (acc ++ [c]) cs := by
  rw [wordRunsA, if_pos hc]

lemma wordRunsA_cons_sep {c : Char} (hc : wordChar c = false) (acc cs : Str) :
    wordRunsA acc (c :: cs) =
      (if acc = [] then [] else [acc]) ++ wordRunsA [] cs := by
  rw [wordRunsA, if_neg (by simp [hc])]

lemma runs_allword {piece : Str} (hp : ∀ c ∈ piece, wordChar c = true) :
    ∀ acc : Str, wordRunsA acc piece =
      if acc ++ piece = [] then [] else [acc ++ piece] := by
  induction piece with
  | nil =>
    intro acc
    rw [wordRunsA]
    simp
  | cons c cs ih =>
    intro acc
    rw [wordRunsA_cons_word (hp c (List.mem_cons_self c cs)),
      ih (fun d hd => hp d (List.mem_cons_of_mem c hd))]
    simp

lemma runs_allsep {L : Str} (hp : ∀ c ∈ L, wordChar c = false) :
    ∀ acc : Str, wordRunsA acc L = if acc = [] then [] else [acc] := by
  induction L with
  | nil =>
    intro acc
    rw [wordRunsA]
  | cons c cs ih =>
    intro acc
    rw [wordRunsA_cons_sep (hp c (List.mem_cons_self c cs)),
      ih (fun d hd => hp d (List.mem_cons_of_mem c hd))]
    simp

lemma runs_split {R : Str} (hR : boundaryAfter R = true) :
    ∀ (A acc : Str), wordRunsA acc (A ++ R) = wordRunsA acc A ++ wordRunsA [] R := by
  intro A
  induction A with
  | nil =>
    intro acc
    rcases R with _ | ⟨d, R'⟩
    · rw [wordRunsA]
      simp [wordRunsA]
    · have hd : wordChar d = false := by
        have : (!wordChar d) = true := hR
        simpa using this
      rw [List.nil_append, wordRunsA_cons_sep hd, wordRunsA_cons_sep hd,
        show wordRunsA acc ([] : Str) = if acc = [] then [] else [acc] from by rw [wordRunsA]]
      simp
  | cons c A' ih =>
    intro acc
    by_cases hc : wordChar c
    · rw [List.cons_append, wordRunsA_cons_word hc, wordRunsA_cons_word hc, ih]
    · rw [List.cons_append, wordRunsA_cons_sep (by simpa using hc),
        wordRunsA_cons_sep (by simpa using hc), ih, List.append_assoc]

lemma subWordA_id {w r : Str} (hw : w ≠ []) :
    ∀ (rest acc : Str), (∀ x ∈ wordRunsA acc rest, x ≠ w) →
      subWordA w r acc rest = acc ++ rest := by
  intro rest
  induction rest with
  | nil =>
    intro acc h
    rw [subWordA, flushRun]
    by_cases ha : acc = []
    · rw [if_neg (by rw [ha]; exact Ne.symm hw)]
      simp [ha]
    · have hacc : acc ≠ w := by
        apply h
        rw [wordRunsA, if_neg ha]
        exact List.mem_singleton.mpr rfl
      rw [if_neg hacc]
      simp
  | cons c cs ih =>
    intro acc h
    rw [subWordA]
    by_cases hc : wordChar c
    · rw [if_pos hc]
      rw [wordRunsA_cons_word hc] at h
      rw [ih (acc ++ [c]) h, List.append_assoc]
      rfl
    · rw [if_neg hc]
      rw [wordRunsA_cons_sep (by simpa using hc)] at h
      have hflush : flushRun w r acc = acc := by
        rw [flushRun]
        by_cases ha : acc = []
        · rw [if_neg (show acc ≠ w by rw [ha]; exact Ne.symm hw)]
        · have hmem : acc ∈ (if acc = [] then ([] : List Str) else [acc]) ++ wordRunsA [] cs := by
            rw [if_neg ha]
            exact List.mem_append_left _ (List.mem_singleton.mpr rfl)
          rw [if_neg (h acc hmem)]
      rw [hflush, ih [] (fun x hx => h x (List.mem_append_right _ hx))]
      rfl


lemma runs_subWordA {w r : Str} (hw : w ≠ []) (hr : r ≠ [])
    (hrw : ∀ c ∈ r, wordChar c = true) :
    ∀ (rest acc : Str), (∀ c ∈ acc, wordChar c = true) →
      wordRunsA [] (subWordA w r acc rest) =
        (wordRunsA acc rest).map (fun run => if run = w then r else run) := by
  intro rest
  induction rest with
  | nil =>
    intro acc hacc
    rw [subWordA, flushRun]
    by_cases ha : acc = []
    · rw [if_neg (show acc ≠ w by rw [ha]; exact Ne.symm hw)]
      subst ha
      rfl
    · by_cases haw : acc = w
      · rw [if_pos haw]
        have h1 : wordRunsA [] r = [r] := by
          rw [runs_allword hrw []]
          simp [hr]
        rw [h1, show wordRunsA acc ([] : Str) = [acc] from by rw [wordRunsA, if_neg ha]]
        rw [List.map_singleton, if_pos haw]
      · rw [if_neg haw]
        have h2 : wordRunsA [] acc = [acc] := by
          rw [runs_allword hacc []]
          simp [ha]
        rw [h2, show wordRunsA acc ([] : Str) = [acc] from by rw [wordRunsA, if_neg ha]]
        rw [List.map_singleton, if_neg haw]
  | cons c cs ih =>
    intro acc hacc
    rw [subWordA]
    by_cases hc : wordChar c
    · rw [if_pos hc, wordRunsA_cons_word hc]
      apply ih
      intro d hd
      rcases List.mem_append.mp hd with h | h
      · exact hacc d h
      · obtain rfl : d = c := List.mem_singleton.mp h
        exact hc
    · rw [if_neg hc, wordRunsA_cons_sep (by simpa using hc)]
      have hbnd : boundaryAfter (c :: subWordA w r [] cs) = true := by
        show (!wordChar c) = true
        simp [hc]
      rw [runs_split hbnd, wordRunsA_cons_sep (by simpa using hc)]
      have htail : wordRunsA [] (subWordA w r [] cs) =
          (wordRunsA [] cs).map (fun run => if run = w then r else run) :=
        ih [] (fun d hd => absurd hd (List.not_mem_nil d))
      rw [show ((if ([] : Str) = [] then ([] : List Str) else [[]]) ++
          wordRunsA [] (subWordA w r [] cs)) = wordRunsA [] (subWordA w r [] cs) from by simp]
      rw [htail, List.map_append]
      congr 1
      rw [flushRun]
      by_cases ha : acc = []
      · rw [if_neg (show acc ≠ w by rw [ha]; exact Ne.symm hw), if_pos ha]
        subst ha
        rw [wordRunsA]
        rfl
      · rw [if_neg ha]
        by_cases haw : acc = w
        · rw [if_pos haw]
          have h1 : wordRunsA [] r = [r] := by
            rw [runs_allword hrw []]
            simp [hr]
          rw [h1, List.map_singleton, if_pos haw]
        · rw [if_neg haw]
          have h2 : wordRunsA [] acc = [acc] := by
            rw [runs_allword hacc []]
            simp [ha]
          rw [h2, List.map_singleton, if_neg haw]

lemma runs_subWord {w r v : Str} (hw : w ≠ []) (hr : r ≠ [])
    (hrw : ∀ c ∈ r, wordChar c = true) :
    wordRuns (subWord w r v) = (wordRuns v).map (fun run => if run = w then r else run) := by
  rw [wordRuns, wordRuns, subWord]
  exact runs_subWordA hw hr hrw v [] (fun d hd => absurd hd (List.not_mem_nil d))


lemma runs_pobox_start (Y : Str) :
    wordRunsA [] ("po box".data ++ Y) = "po".data :: wordRunsA "box".data Y := by
  show wordRunsA [] ('p' :: 'o' :: ' ' :: 'b' :: 'o' :: 'x' :: Y) = _
  rw [wordRunsA_cons_word (by decide), wordRunsA_cons_word (by decide),
    wordRunsA_cons_sep (by decide), wordRunsA_cons_word (by decide),
    wordRunsA_cons_word (by decide), wordRunsA_cons_word (by decide)]
  simp

lemma runs_subPoBoxA_aux : ∀ (k : ℕ) (v : Str), v.length ≤ k → ∀ (acc : Str) (b : Bool),
    b = decide (acc ≠ []) → ∀ x ∈ wordRunsA acc (subPoBoxA b v),
      x ∈ wordRunsA acc v ∨ x = "po".data ∨ x = "box".data := by
  intro k
  induction k with
  | zero =>
    intro v hv acc b hb x hx
    have hnil : v = [] := List.eq_nil_of_length_eq_zero (by omega)
    subst hnil
    rw [subPoBoxA_nil] at hx
    exact Or.inl hx
  | succ k ih =>
    intro v hv acc b hb x hx
    rcases v with _ | ⟨c, cs⟩
    · rw [subPoBoxA_nil] at hx
      exact Or.inl hx
    · have hlu : cs.length ≤ k := by
        simp only [List.length_cons] at hv
        omega
      by_cases hcw : wordChar c = true
      · by_cases hacc : acc = []
        · subst hacc
          have hbf : b = false := by
            rw [hb]
            rfl
          subst hbf
          rcases hm : matchPoBox (c :: cs) with _ | n
          · rw [subPoBoxA_false_cons_none hm, hcw, wordRunsA_cons_word hcw] at hx
            rcases ih cs hlu ([] ++ [c]) true (by simp) x hx with h | h
            · rw [wordRunsA_cons_word hcw]
              exact Or.inl h
            · exact Or.inr h
          · have hcp : c = 'p' := by
              obtain ⟨cs', heq, -⟩ := matchPoBox_inv hm
              exact (List.cons.inj heq).1
            subst hcp
            rw [subPoBoxA_false_cons_some hm, runs_pobox_start] at hx
            have h1 : 1 ≤ n := matchPoBox_pos hm
            have hdropn : ('p' :: cs : Str).drop n = cs.drop (n - 1) := by
              have hn : n = (n - 1) + 1 := by omega
              rw [hn]
              rfl
            have hbR : boundaryAfter (cs.drop (n - 1)) = true := by
              have hd := (matchPoBox_drop hm).2
              rwa [hdropn] at hd
            rcases List.mem_cons.mp hx with rfl | hx2
            · exact Or.inr (Or.inl rfl)
            · have hld : (cs.drop (n - 1)).length ≤ k := by
                have : (cs.drop (n - 1)).length ≤ cs.length := by
                  rw [List.length_drop]
                  omega
                omega
              rcases ih _ hld "box".data true rfl x hx2 with h | h
              · have hsplit := runs_split hbR [] "box".data
                rw [List.nil_append] at hsplit
                rw [hsplit] at h
                rcases List.mem_append.mp h with hbx | hR
                · right
                  right
                  have : wordRunsA "box".data ([] : Str) = ["box".data] := by
                    rw [wordRunsA]
                    rfl
                  rw [this] at hbx
                  exact List.mem_singleton.mp hbx
                · left
                  have hTD : ('p' :: cs : Str) = ('p' :: cs).take n ++ cs.drop (n - 1) := by
                    have := List.take_append_drop n ('p' :: cs)
                    rw [hdropn] at this
                    exact this.symm
                  have hsplit2 := runs_split hbR (('p' :: cs).take n) []
                  rw [← hTD] at hsplit2
                  rw [hsplit2]
                  exact List.mem_append_right _ hR
              · exact Or.inr h
        · have hbt : b = true := by
            rw [hb]
            simp [hacc]
          subst hbt
          rw [subPoBoxA_true_cons, hcw, wordRunsA_cons_word hcw] at hx
          rcases ih cs hlu (acc ++ [c]) true (by simp) x hx with h | h
          · rw [wordRunsA_cons_word hcw]
            exact Or.inl h
          · exact Or.inr h
      · have hcp : c ≠ 'p' := by
          intro hcpe
          subst hcpe
          exact hcw (by decide)
        have hcwf : wordChar c = false := by simpa using hcw
        rw [scan_cons_ne_p hcp, hcwf, wordRunsA_cons_sep hcwf] at hx
        rcases List.mem_append.mp hx with h | h
        · rw [wordRunsA_cons_sep hcwf]
          exact Or.inl (List.mem_append_left _ h)
        · rcases ih cs hlu [] false rfl x h with h2 | h2
          · rw [wordRunsA_cons_sep hcwf]
            exact Or.inl (List.mem_append_right _ h2)
          · exact Or.inr h2

lemma runs_subPoBox {v : Str} {x : Str} (hx : x ∈ wordRuns (subPoBox v)) :
    x ∈ wordRuns v ∨ x = "po".data ∨ x = "box".data := by
  rw [wordRuns, subPoBox] at hx
  rw [wordRuns]
  exact runs_subPoBoxA_aux v.length v (Nat.le_refl _) [] false rfl x hx


lemma runs_dropWhile_ws (v : Str) :
    wordRunsA [] (v.dropWhile pyWs) = wordRunsA [] v := by
  induction v with
  | nil => rfl
  | cons c cs ih =>
    by_cases hc : pyWs c
    · rw [List.dropWhile_cons_of_pos hc, wordRunsA_cons_sep (pyWs_not_word hc), ih]
      simp
    · rw [List.dropWhile_cons_of_neg hc]

lemma runs_cwF_aux : ∀ (k : ℕ) (v : Str), v.length ≤ k → ∀ acc : Str,
    wordRunsA acc (subRunsA pyWs [' '] false v) = wordRunsA acc v := by
  intro k
  induction k with
  | zero =>
    intro v hv acc
    have hnil : v = [] := List.eq_nil_of_length_eq_zero (by omega)
    subst hnil
    rfl
  | succ k ih =>
    intro v hv acc
    rcases v with _ | ⟨c, cs⟩
    · rfl
    · have hlu : cs.length ≤ k := by
        simp only [List.length_cons] at hv
        omega
      by_cases hc : pyWs c
      · rw [cwF_cons_ws hc, cwT_eq,
          wordRunsA_cons_sep (by decide : wordChar ' ' = false),
          wordRunsA_cons_sep (pyWs_not_word hc)]
        have hlen2 : (cs.dropWhile pyWs).length ≤ k :=
          le_trans (length_dropWhile_ws_le cs) hlu
        rw [ih _ hlen2 [], runs_dropWhile_ws]
      · by_cases hcw : wordChar c = true
        · rw [cwF_cons_nws (by simpa using hc), wordRunsA_cons_word hcw,
            wordRunsA_cons_word hcw, ih _ hlu]
        · rw [cwF_cons_nws (by simpa using hc),
            wordRunsA_cons_sep (by simpa using hcw),
            wordRunsA_cons_sep (by simpa using hcw), ih _ hlu]

lemma runs_cwF (v : Str) :
    wordRuns (subRunsA pyWs [' '] false v) = wordRuns v :=
  runs_cwF_aux v.length v (Nat.le_refl _) []

lemma runs_append_ws {WS : Str} (h : ∀ c ∈ WS, pyWs c = true) :
    ∀ (A acc : Str), wordRunsA acc (A ++ WS) = wordRunsA acc A := by
  intro A
  induction A with
  | nil =>
    intro acc
    rw [List.nil_append, runs_allsep (fun c hc => pyWs_not_word (h c hc)) acc, wordRunsA]
  | cons c A' ih =>
    intro acc
    by_cases hc : wordChar c
    · rw [List.cons_append, wordRunsA_cons_word hc, wordRunsA_cons_word hc, ih]
    · rw [List.cons_append, wordRunsA_cons_sep (by simpa using hc),
        wordRunsA_cons_sep (by simpa using hc), ih]

lemma runs_pyStrip (v : Str) : wordRuns (pyStrip v) = wordRuns v := by
  simp only [pyStrip]
  obtain ⟨hdec, hws⟩ := rstrip_dec (v.dropWhile pyWs)
  rw [wordRuns, wordRuns]
  have h1 := runs_append_ws hws
    (((v.dropWhile pyWs).reverse.dropWhile pyWs).reverse) []
  rw [← hdec] at h1
  rw [← h1, runs_dropWhile_ws]

lemma runs_norm_no_keys (s : Str) : ∀ x ∈ wordRuns (PS.normalize_text s),
    x ≠ "st".data ∧ x ≠ "str".data ∧ x ≠ "rd".data ∧ x ≠ "ave".data ∧ x ≠ "av".data ∧
      x ≠ "blvd".data ∧ x ≠ "ln".data := by
  intro x hx
  by_cases hs : s = []
  · subst hs
    rw [PS.normalize_text, if_pos rfl] at hx
    have hempty : wordRuns ([] : Str) = [] := rfl
    rw [hempty] at hx
    exact absurd hx (List.not_mem_nil x)
  · rw [PS.normalize_text, if_neg hs, runs_pyStrip, subRuns, runs_cwF] at hx
    rcases runs_subPoBox hx with hx1 | hx1 | hx1
    · rw [subWords_expand] at hx1
      rw [runs_subWord (by decide) (by decide) (by decide)] at hx1
      obtain ⟨y1, hy1, rfl⟩ := List.mem_map.mp hx1
      rw [runs_subWord (by decide) (by decide) (by decide)] at hy1
      obtain ⟨y2, hy2, rfl⟩ := List.mem_map.mp hy1
      rw [runs_subWord (by decide) (by decide) (by decide)] at hy2
      obtain ⟨y3, hy3, rfl⟩ := List.mem_map.mp hy2
      rw [runs_subWord (by decide) (by decide) (by decide)] at hy3
      obtain ⟨y4, hy4, rfl⟩ := List.mem_map.mp hy3
      rw [runs_subWord (by decide) (by decide) (by decide)] at hy4
      obtain ⟨y5, hy5, rfl⟩ := List.mem_map.mp hy4
      rw [runs_subWord (by decide) (by decide) (by decide)] at hy5
      obtain ⟨y6, hy6, rfl⟩ := List.mem_map.mp hy5
      rw [runs_subWord (by decide) (by decide) (by decide)] at hy6
      obtain ⟨y, hy, rfl⟩ := List.mem_map.mp hy6
      by_cases h1 : y = "st".data
      · subst h1
        decide
      · by_cases h2 : y = "str".data
        · subst h2
          decide
        · by_cases h3 : y = "rd".data
          · subst h3
            decide
          · by_cases h4 : y = "ave".data
            · subst h4
              decide
            · by_cases h5 : y = "av".data
              · subst h5
                decide
              · by_cases h6 : y = "blvd".data
                · subst h6
                  decide
                · by_cases h7 : y = "ln".data
                  · subst h7
                    decide
                  · dsimp only
                    rw [if_neg h1, if_neg h2, if_neg h3, if_neg h4, if_neg h5, if_neg h6,
                      if_neg h7]
                    exact ⟨h1, h2, h3, h4, h5, h6, h7⟩
    · subst hx1
      exact (by decide)
    · subst hx1
      exact (by decide)

lemma subWords_norm_fix (s : Str) :
    PS.subWords (PS.normalize_text s) = PS.normalize_text s := by
  have hno := runs_norm_no_keys s
  have hfix : ∀ w r : Str, w ≠ [] →
      (∀ x ∈ wordRuns (PS.normalize_text s), x ≠ w) →
      subWord w r (PS.normalize_text s) = PS.normalize_text s := by
    intro w r hw h
    rw [subWord]
    have hid := @subWordA_id w r hw (PS.normalize_text s) []
      (fun x hx => h x (by rw [wordRuns]; exact hx))
    rw [hid]
    rfl
  rw [subWords_expand,
    hfix "st".data "street".data (by decide) (fun x hx => (hno x hx).1),
    hfix "str".data "street".data (by decide) (fun x hx => (hno x hx).2.1),
    hfix "rd".data "road".data (by decide) (fun x hx => (hno x hx).2.2.1),
    hfix "ave".data "avenue".data (by decide) (fun x hx => (hno x hx).2.2.2.1),
    hfix "av".data "avenue".data (by decide) (fun x hx => (hno x hx).2.2.2.2.1),
    hfix "blvd".data "boulevard".data (by decide) (fun x hx => (hno x hx).2.2.2.2.2.1),
    hfix "ln".data "lane".data (by decide) (fun x hx => (hno x hx).2.2.2.2.2.2)]


lemma scan_norm_fix (s : Str) :
    subPoBox (PS.normalize_text s) = PS.normalize_text s := by
  by_cases hs : s = []
  · subst hs
    rw [PS.normalize_text, if_pos rfl, subPoBox, subPoBoxA_nil]
  · rw [PS.normalize_text, if_neg hs, subPoBox, subRuns, subPoBox]
    exact scan_strip_cw_fix _

lemma strip_cw_norm_fix (s : Str) :
    pyStrip (subRuns pyWs [' '] (PS.normalize_text s)) = PS.normalize_text s := by
  by_cases hs : s = []
  · subst hs
    rw [PS.normalize_text, if_pos rfl, subRuns, subRunsA_nil]
    rfl
  · rw [PS.normalize_text, if_neg hs, subRuns, subRuns, subPoBox]
    exact strip_cw_strip_cw _

/-- C7: the text normalizer is idempotent. -/
theorem normalize_text_idempotent (s : Str) :
    PS.normalize_text (PS.normalize_text s) = PS.normalize_text s := by
  by_cases hN : PS.normalize_text s = []
  · conv_lhs => rw [PS.normalize_text]
    rw [if_pos hN]
    exact hN.symm
  · conv_lhs => rw [PS.normalize_text]
    rw [if_neg hN, lower_norm_fix, punct_norm_fix, subWords_norm_fix, scan_norm_fix,
      strip_cw_norm_fix]

